import Mathlib

/-!
Verification of the Protohackers servers repository: a shallow embedding of
the pure protocol logic of the servers in src/, with theorems settling the
frozen claims about them.  Machine bytes are modelled as `Nat` values with
explicit `% 256` / `% 2 ^ 32` where the Rust code relies on fixed-width
wrapping; fallible code returns `Option` or `Except`, with `none` standing
for a Rust panic where the source can panic.
-/

namespace Cipher

/-! Model of src/server_08.rs: the obfuscation layer of the cipher proxy.
Bytes are `Nat`s; the u8 operations wrap modulo 256. -/

/-- Cipher operations, as in enum CipherOp of server_08.rs. -/
inductive CipherOp where
  | reversebits : CipherOp
  | xorN (n : Nat) : CipherOp
  | xorpos : CipherOp
  | addN (n : Nat) : CipherOp
  | addpos : CipherOp
deriving DecidableEq, Repr

/-- Bit reversal of an 8-bit value, modelling u8::reverse_bits: bit i of the
input becomes bit 7 - i of the output. -/
def reverseBits (b : Nat) : Nat :=
  (List.range 8).foldl (fun acc i => 2 * acc + b / 2 ^ i % 2) 0

/-- CipherOp::encode of server_08.rs: one op applied to byte `b` at stream
position `p` (the Rust `pos as u8` cast is the `p % 256`). -/
def CipherOp.encodeByte : CipherOp → Nat → Nat → Nat
  | .reversebits, b, _ => reverseBits b
  | .xorN n, b, _ => b ^^^ n % 256
  | .xorpos, b, p => b ^^^ p % 256
  | .addN n, b, _ => (b + n % 256) % 256
  | .addpos, b, p => (b + p % 256) % 256

/-- CipherOp::decode of server_08.rs: same as encode except that the two add
ops subtract instead (u8 wrapping_sub modelled as adding the complement). -/
def CipherOp.decodeByte : CipherOp → Nat → Nat → Nat
  | .addN n, b, _ => (b + (256 - n % 256)) % 256
  | .addpos, b, p => (b + (256 - p % 256)) % 256
  | op, b, p => op.encodeByte b p

/-- ObfuscationLayer::encode applied to one byte: the ops left to right. -/
def encodeByteAll (ops : List CipherOp) (b p : Nat) : Nat :=
  ops.foldl (fun byte op => op.encodeByte byte p) b

/-- ObfuscationLayer::decode applied to one byte: the ops right to left,
each inverted. -/
def decodeByteAll (ops : List CipherOp) (b p : Nat) : Nat :=
  ops.reverse.foldl (fun byte op => op.decodeByte byte p) b

/-- ObfuscationLayer::encode on a byte string, positions `p`, `p+1`, ... -/
def encodeFrom (ops : List CipherOp) (p : Nat) : List Nat → List Nat
  | [] => []
  | b :: rest => encodeByteAll ops b p :: encodeFrom ops (p + 1) rest

/-- ObfuscationLayer::decode on a byte string, positions `p`, `p+1`, ... -/
def decodeFrom (ops : List CipherOp) (p : Nat) : List Nat → List Nat
  | [] => []
  | b :: rest => decodeByteAll ops b p :: decodeFrom ops (p + 1) rest

/-- The probe string "123abcdefg789" used by ObfuscationLayer::new. -/
def probe : List Nat := [49, 50, 51, 97, 98, 99, 100, 101, 102, 103, 55, 56, 57]

/-- A cipher spec is accepted by ObfuscationLayer::new exactly when encoding
the probe from position 0 does not return the probe itself. -/
def acceptedSpec (ops : List CipherOp) : Prop := encodeFrom ops 0 probe ≠ probe

/-- CipherOp::parse_spec of server_08.rs.  `none` models a panic of the Rust
code: the `unreachable!()` arm for an op byte outside 0x00-0x05, and the
out-of-bounds `spec[index]` when 0x02/0x04 ends the slice with no operand. -/
def parseSpec : List Nat → Option (List CipherOp)
  | [] => some []
  | 0 :: _ => some []
  | 1 :: rest => (parseSpec rest).map (CipherOp.reversebits :: ·)
  | 2 :: rest =>
    match rest with
    | [] => none
    | n :: rest2 => (parseSpec rest2).map (CipherOp.xorN n :: ·)
  | 3 :: rest => (parseSpec rest).map (CipherOp.xorpos :: ·)
  | 4 :: rest =>
    match rest with
    | [] => none
    | n :: rest2 => (parseSpec rest2).map (CipherOp.addN n :: ·)
  | 5 :: rest => (parseSpec rest).map (CipherOp.addpos :: ·)
  | _ :: _ => none

/-- The grammar of cipher specs that parse_spec walks without panicking:
at every op position a byte in 0x00-0x05, with 0x02 and 0x04 followed by
their operand byte. -/
inductive SpecWF : List Nat → Prop where
  | nil : SpecWF []
  | term (rest : List Nat) : SpecWF (0 :: rest)
  | rev {rest : List Nat} : SpecWF rest → SpecWF (1 :: rest)
  | xorOp (n : Nat) {rest : List Nat} : SpecWF rest → SpecWF (2 :: n :: rest)
  | xorposOp {rest : List Nat} : SpecWF rest → SpecWF (3 :: rest)
  | addOp (n : Nat) {rest : List Nat} : SpecWF rest → SpecWF (4 :: n :: rest)
  | addposOp {rest : List Nat} : SpecWF rest → SpecWF (5 :: rest)

set_option maxRecDepth 4096 in
theorem reverseBits_table : ∀ x : Fin 256,
    reverseBits x.val < 256 ∧ reverseBits (reverseBits x.val) = x.val := by decide

theorem reverseBits_lt {b : Nat} (h : b < 256) : reverseBits b < 256 :=
  (reverseBits_table ⟨b, h⟩).1

theorem reverseBits_involutive {b : Nat} (h : b < 256) :
    reverseBits (reverseBits b) = b :=
  (reverseBits_table ⟨b, h⟩).2

theorem encodeByte_lt (op : CipherOp) {b : Nat} (p : Nat) (h : b < 256) :
    op.encodeByte b p < 256 := by
  cases op with
  | reversebits => exact reverseBits_lt h
  | xorN n =>
    exact Nat.xor_lt_two_pow (n := 8) h (Nat.mod_lt _ (by norm_num))
  | xorpos =>
    exact Nat.xor_lt_two_pow (n := 8) h (Nat.mod_lt _ (by norm_num))
  | addN n => exact Nat.mod_lt _ (by norm_num)
  | addpos => exact Nat.mod_lt _ (by norm_num)

theorem decodeByte_encodeByte (op : CipherOp) {b : Nat} (p : Nat) (h : b < 256) :
    op.decodeByte (op.encodeByte b p) p = b := by
  cases op with
  | reversebits => exact reverseBits_involutive h
  | xorN n =>
    show b ^^^ n % 256 ^^^ n % 256 = b
    rw [Nat.xor_assoc, Nat.xor_self, Nat.xor_zero]
  | xorpos =>
    show b ^^^ p % 256 ^^^ p % 256 = b
    rw [Nat.xor_assoc, Nat.xor_self, Nat.xor_zero]
  | addN n =>
    show ((b + n % 256) % 256 + (256 - n % 256)) % 256 = b
    have h2 : n % 256 < 256 := Nat.mod_lt _ (by norm_num)
    omega
  | addpos =>
    show ((b + p % 256) % 256 + (256 - p % 256)) % 256 = b
    have h2 : p % 256 < 256 := Nat.mod_lt _ (by norm_num)
    omega

theorem encodeByteAll_lt (ops : List CipherOp) {b : Nat} (p : Nat) (h : b < 256) :
    encodeByteAll ops b p < 256 := by
  induction ops generalizing b with
  | nil => exact h
  | cons op rest ih => exact ih (encodeByte_lt op p h)

theorem decodeByteAll_cons (op : CipherOp) (ops : List CipherOp) (b p : Nat) :
    decodeByteAll (op :: ops) b p = op.decodeByte (decodeByteAll ops b p) p := by
  unfold decodeByteAll
  rw [List.reverse_cons, List.foldl_append]
  rfl

theorem decodeByteAll_encodeByteAll (ops : List CipherOp) {b : Nat} (p : Nat)
    (h : b < 256) : decodeByteAll ops (encodeByteAll ops b p) p = b := by
  induction ops generalizing b with
  | nil => rfl
  | cons op rest ih =>
    rw [decodeByteAll_cons]
    show op.decodeByte (decodeByteAll rest (encodeByteAll rest (op.encodeByte b p) p) p) p = b
    rw [ih (encodeByte_lt op p h)]
    exact decodeByte_encodeByte op p h

theorem decodeFrom_encodeFrom (ops : List CipherOp) (p : Nat) (s : List Nat)
    (hs : ∀ b ∈ s, b < 256) : decodeFrom ops p (encodeFrom ops p s) = s := by
  induction s generalizing p with
  | nil => rfl
  | cons b rest ih =>
    show decodeByteAll ops (encodeByteAll ops b p) p :: decodeFrom ops (p + 1) (encodeFrom ops (p + 1) rest) = b :: rest
    rw [decodeByteAll_encodeByteAll ops p (hs b (List.mem_cons_self b rest)),
      ih (p + 1) (fun x hx => hs x (List.mem_cons_of_mem b hx))]

/-- Claim C3: for every cipher spec accepted by the server (one whose
encoding of the probe is not the identity) and every byte string, decoding
the encoding at the same starting position returns the original string:
each op is inverted (reversebits and xor self-inverse, add and addpos
inverted to subtraction mod 256) with the ops applied in reverse order. -/
theorem claim_C3_cipher_roundtrip (ops : List CipherOp) (h_acc : acceptedSpec ops)
    (s : List Nat) (p : Nat) (hs : ∀ b ∈ s, b < 256) :
    decodeFrom ops p (encodeFrom ops p s) = s := by
  clear h_acc
  exact decodeFrom_encodeFrom ops p s hs

/-- Witness for C3 at a concrete accepted spec, xor(1), and the byte string
"hi" encoded from position 0. -/
theorem claim_C3_witness :
    decodeFrom [CipherOp.xorN 1] 0 (encodeFrom [CipherOp.xorN 1] 0 [104, 105]) = [104, 105] :=
  claim_C3_cipher_roundtrip [CipherOp.xorN 1] (by unfold acceptedSpec; decide) [104, 105] 0 (by decide)

theorem parseSpec_isSome_of_wf {s : List Nat} (h : SpecWF s) :
    (parseSpec s).isSome := by
  induction h with
  | nil => rfl
  | term rest => rfl
  | rev _ ih =>
    simp only [parseSpec, Option.isSome_map']
    exact ih
  | xorOp n _ ih =>
    simp only [parseSpec, Option.isSome_map']
    exact ih
  | xorposOp _ ih =>
    simp only [parseSpec, Option.isSome_map']
    exact ih
  | addOp n _ ih =>
    simp only [parseSpec, Option.isSome_map']
    exact ih
  | addposOp _ ih =>
    simp only [parseSpec, Option.isSome_map']
    exact ih

theorem wf_of_parseSpec_isSome : ∀ s : List Nat, (parseSpec s).isSome → SpecWF s
  | [], _ => SpecWF.nil
  | 0 :: rest, _ => SpecWF.term rest
  | 1 :: rest, h => by
    refine SpecWF.rev (wf_of_parseSpec_isSome rest ?_)
    simpa only [parseSpec, Option.isSome_map'] using h
  | 2 :: [], h => by simp [parseSpec] at h
  | 2 :: n :: rest, h => by
    refine SpecWF.xorOp n (wf_of_parseSpec_isSome rest ?_)
    simpa only [parseSpec, Option.isSome_map'] using h
  | 3 :: rest, h => by
    refine SpecWF.xorposOp (wf_of_parseSpec_isSome rest ?_)
    simpa only [parseSpec, Option.isSome_map'] using h
  | 4 :: [], h => by simp [parseSpec] at h
  | 4 :: n :: rest, h => by
    refine SpecWF.addOp n (wf_of_parseSpec_isSome rest ?_)
    simpa only [parseSpec, Option.isSome_map'] using h
  | 5 :: rest, h => by
    refine SpecWF.addposOp (wf_of_parseSpec_isSome rest ?_)
    simpa only [parseSpec, Option.isSome_map'] using h
  | (n + 6) :: rest, h => by simp [parseSpec] at h

/-- Claim C10, amended: CipherOp::parse_spec completes and returns an op
list exactly for byte sequences in the spec grammar (each op-position byte
in 0x00-0x05, operands present after 0x02/0x04); on any other sequence it
panics (the unreachable arm, or the missing-operand index), aborting that
connection's handler task. -/
theorem claim_C10_amended (s : List Nat) : (parseSpec s).isSome ↔ SpecWF s :=
  ⟨wf_of_parseSpec_isSome s, parseSpec_isSome_of_wf⟩

/-- Counterexample to claim C10 as stated: the spec 0x06 0x00 ends with the
0x00 terminator, yet parse_spec panics on the op byte 0x06 (the
unreachable arm), modelled as `none`, instead of completing. -/
theorem claim_C10_counterexample : parseSpec [6, 0] = none := by decide

end Cipher

namespace JobBroker

/-! Model of ServerState::get of src/server_09.rs (the job queue broker).
JSON job payloads are opaque to `get`, modelled as an opaque string. -/

/-- A queued job, as in struct Job of server_09.rs. -/
structure Job where
  id : Nat
  queue : String
  priority : Nat
  task : String
deriving DecidableEq, Repr

/-- The JSON texts `get` can answer with. -/
inductive BrokerResp where
  | okJob (id : Nat) (pri : Nat) (queue : String) (task : String) : BrokerResp
  | noJob : BrokerResp
deriving DecidableEq, Repr

/-- The enum ServerMessage of server_09.rs, restricted to what `get` emits. -/
inductive BrokerMsg where
  | response (r : BrokerResp) : BrokerMsg
  | waiting : BrokerMsg
deriving DecidableEq, Repr

/-- The fields of struct ServerState that `get` touches.  The HashMaps are
modelled as association lists with unique keys, accessed by key only. -/
structure BrokerState where
  clientJobs : List (Nat × List Job)
  queues : List (String × List Job)
  waitingClients : List (Nat × List String)
deriving DecidableEq, Repr

/-- HashMap::get on the queue map. -/
def lookupQ (l : List (String × List Job)) (k : String) : Option (List Job) :=
  (l.find? (fun kv => kv.1 == k)).map (fun kv => kv.2)

/-- Replacing the value stored under a present key (get_mut followed by a
mutation). -/
def setQ (l : List (String × List Job)) (k : String) (v : List Job) :
    List (String × List Job) :=
  match l with
  | [] => []
  | kv :: rest => if kv.1 == k then (k, v) :: rest else kv :: setQ rest k v

/-- client_jobs.entry(client).or_insert(vec![]).push(job). -/
def pushClientJob (l : List (Nat × List Job)) (c : Nat) (j : Job) :
    List (Nat × List Job) :=
  match l with
  | [] => [(c, [j])]
  | kv :: rest => if kv.1 == c then (kv.1, kv.2 ++ [j]) :: rest else kv :: pushClientJob rest c j

/-- waiting_clients.insert(client, queues). -/
def setWaiting (l : List (Nat × List String)) (c : Nat) (qs : List String) :
    List (Nat × List String) :=
  match l with
  | [] => [(c, qs)]
  | kv :: rest => if kv.1 == c then (c, qs) :: rest else kv :: setWaiting rest c qs

/-- self.queues[queue].iter().map(|job| job.priority).max(). -/
def maxPrio : List Job → Option Nat
  | [] => none
  | j :: js =>
    match maxPrio js with
    | none => some j.priority
    | some m => some (max j.priority m)

/-- One iteration of the selection loop of ServerState::get: queue `name` is
considered and the accumulator (best priority so far, best queue name so far)
is updated when the queue's maximum priority strictly exceeds the best. -/
def fhStep (st : BrokerState) (name : String) (acc : Nat × Option String) :
    Nat × Option String :=
  match lookupQ st.queues name with
  | none => acc
  | some jobs =>
    match maxPrio jobs with
    | none => acc
    | some p => if acc.1 < p then (p, some name) else acc

/-- The selection loop of ServerState::get: walk the requested queue names in
order, with the best-so-far priority starting at 0. -/
def findHighest (st : BrokerState) : List String → Nat × Option String → Nat × Option String
  | [], acc => acc
  | name :: rest, acc => findHighest st rest (fhStep st name acc)

/-- Vec::remove at the position of the first element satisfying `p`,
returning the element and the remaining list. -/
def extractFirst (p : Job → Bool) : List Job → Option (Job × List Job)
  | [] => none
  | j :: js =>
    if p j then some (j, js)
    else (extractFirst p js).map (fun xr => (xr.1, j :: xr.2))

/-- ServerState::get of server_09.rs, after the request JSON has been
deconstructed into the queue-name list and the wait flag.  `none` models the
two unwrap panics of the source (both unreachable, as proved below). -/
def brokerGet (st : BrokerState) (clientId : Nat) (names : List String)
    (wait : Bool) : Option (BrokerState × List BrokerMsg) :=
  match findHighest st names (0, none) with
  | (hp, some qname) =>
    match lookupQ st.queues qname with
    | none => none
    | some jobs =>
      match extractFirst (fun j => j.priority == hp) jobs with
      | none => none
      | some (job, rest) =>
        some ({ st with
                  queues := setQ st.queues qname rest,
                  clientJobs := pushClientJob st.clientJobs clientId job },
              [BrokerMsg.response (BrokerResp.okJob job.id job.priority qname job.task)])
  | (_, none) =>
    if wait then
      some ({ st with waitingClients := setWaiting st.waitingClients clientId names },
            [BrokerMsg.waiting])
    else
      some (st, [BrokerMsg.response BrokerResp.noJob])

theorem maxPrio_eq_none {jobs : List Job} : maxPrio jobs = none ↔ jobs = [] := by
  cases jobs with
  | nil => simp [maxPrio]
  | cons j js => simp only [maxPrio]; cases maxPrio js <;> simp

theorem maxPrio_le {jobs : List Job} {m : Nat} (h : maxPrio jobs = some m) :
    ∀ j ∈ jobs, j.priority ≤ m := by
  induction jobs generalizing m with
  | nil => intro j hj; cases hj
  | cons j js ih =>
    intro x hx
    cases hmax : maxPrio js with
    | none =>
      rw [maxPrio_eq_none.mp hmax] at hx
      simp only [maxPrio, hmax] at h
      cases h
      rcases List.mem_cons.mp hx with rfl | hx2
      · exact Nat.le_refl _
      · cases hx2
    | some m2 =>
      simp only [maxPrio, hmax] at h
      cases h
      rcases List.mem_cons.mp hx with rfl | hx2
      · exact Nat.le_max_left _ _
      · exact Nat.le_trans (ih hmax x hx2) (Nat.le_max_right _ _)

theorem maxPrio_mem {jobs : List Job} {m : Nat} (h : maxPrio jobs = some m) :
    ∃ j ∈ jobs, j.priority = m := by
  induction jobs generalizing m with
  | nil => cases h
  | cons j js ih =>
    cases hmax : maxPrio js with
    | none =>
      simp only [maxPrio, hmax] at h
      cases h
      exact ⟨j, List.mem_cons_self j js, rfl⟩
    | some m2 =>
      simp only [maxPrio, hmax] at h
      cases h
      by_cases hle : j.priority ≤ m2
      · obtain ⟨x, hx, hxp⟩ := ih hmax
        exact ⟨x, List.mem_cons_of_mem j hx, by omega⟩
      · exact ⟨j, List.mem_cons_self j js, by omega⟩

theorem extractFirst_of_exists {jobs : List Job} {p : Job → Bool}
    (h : ∃ j ∈ jobs, p j = true) :
    ∃ j rest, extractFirst p jobs = some (j, rest) ∧ p j = true ∧ j ∈ jobs := by
  induction jobs with
  | nil => obtain ⟨j, hj, _⟩ := h; cases hj
  | cons x xs ih =>
    by_cases hx : p x
    · exact ⟨x, xs, by simp [extractFirst, hx], hx, List.mem_cons_self x xs⟩
    · obtain ⟨j, hj, hpj⟩ := h
      rcases List.mem_cons.mp hj with rfl | hj2
      · exact absurd hpj hx
      · obtain ⟨j2, rest2, heq, hp2, hm2⟩ := ih ⟨j, hj2, hpj⟩
        exact ⟨j2, x :: rest2, by simp [extractFirst, hx, heq], hp2,
          List.mem_cons_of_mem x hm2⟩

theorem fhStep_none {st : BrokerState} {name : String} (acc : Nat × Option String)
    (h : lookupQ st.queues name = none) : fhStep st name acc = acc := by
  simp [fhStep, h]

theorem fhStep_emptyQ {st : BrokerState} {name : String} (acc : Nat × Option String)
    {jobs : List Job} (h : lookupQ st.queues name = some jobs)
    (h2 : maxPrio jobs = none) : fhStep st name acc = acc := by
  simp [fhStep, h, h2]

theorem fhStep_gt {st : BrokerState} {name : String} (acc : Nat × Option String)
    {jobs : List Job} {p : Nat} (h : lookupQ st.queues name = some jobs)
    (h2 : maxPrio jobs = some p) (h3 : acc.1 < p) :
    fhStep st name acc = (p, some name) := by
  simp [fhStep, h, h2, h3]

theorem fhStep_le {st : BrokerState} {name : String} (acc : Nat × Option String)
    {jobs : List Job} {p : Nat} (h : lookupQ st.queues name = some jobs)
    (h2 : maxPrio jobs = some p) (h3 : ¬ acc.1 < p) :
    fhStep st name acc = acc := by
  simp [fhStep, h, h2, h3]

theorem fhStep_fst_ge (st : BrokerState) (name : String) (acc : Nat × Option String) :
    acc.1 ≤ (fhStep st name acc).1 := by
  cases hlk : lookupQ st.queues name with
  | none => rw [fhStep_none acc hlk]
  | some jobs =>
    cases hmax : maxPrio jobs with
    | none => rw [fhStep_emptyQ acc hlk hmax]
    | some p =>
      by_cases hcmp : acc.1 < p
      · rw [fhStep_gt acc hlk hmax hcmp]
        exact Nat.le_of_lt hcmp
      · rw [fhStep_le acc hlk hmax hcmp]

theorem findHighest_fst_ge (st : BrokerState) (names : List String)
    (acc : Nat × Option String) :
    acc.1 ≤ (findHighest st names acc).1 := by
  induction names generalizing acc with
  | nil => exact Nat.le_refl _
  | cons name rest ih =>
    exact Nat.le_trans (fhStep_fst_ge st name acc) (ih (fhStep st name acc))

theorem fhStep_ubound (st : BrokerState) (name : String) (acc : Nat × Option String)
    {jobs : List Job} (hlk : lookupQ st.queues name = some jobs) :
    ∀ j ∈ jobs, j.priority ≤ (fhStep st name acc).1 := by
  intro j hj
  cases hmax : maxPrio jobs with
  | none => rw [maxPrio_eq_none.mp hmax] at hj; cases hj
  | some p =>
    have hle := maxPrio_le hmax j hj
    by_cases hcmp : acc.1 < p
    · rw [fhStep_gt acc hlk hmax hcmp]
      exact hle
    · rw [fhStep_le acc hlk hmax hcmp]
      omega

theorem findHighest_ubound (st : BrokerState) (names : List String)
    (acc : Nat × Option String) :
    ∀ q ∈ names, ∀ jobs, lookupQ st.queues q = some jobs →
      ∀ j ∈ jobs, j.priority ≤ (findHighest st names acc).1 := by
  induction names generalizing acc with
  | nil => intro q hqm; cases hqm
  | cons name rest ih =>
    intro q hqm jobs hlk j hj
    rcases List.mem_cons.mp hqm with rfl | hqm2
    · exact Nat.le_trans (fhStep_ubound st q acc hlk j hj)
        (findHighest_fst_ge st rest (fhStep st q acc))
    · exact ih (fhStep st name acc) q hqm2 jobs hlk j hj

/-- What a final accumulator with a named queue means: either it was the
initial accumulator, or the named queue is one of the walked names and its
maximum priority is the final best, strictly above the initial best. -/
theorem findHighest_some (st : BrokerState) (names : List String)
    (acc : Nat × Option String) (q : String)
    (h : (findHighest st names acc).2 = some q) :
    findHighest st names acc = acc ∨
      (q ∈ names ∧ ∃ jobs, lookupQ st.queues q = some jobs ∧
        maxPrio jobs = some (findHighest st names acc).1 ∧
        acc.1 < (findHighest st names acc).1) := by
  induction names generalizing acc with
  | nil => exact Or.inl rfl
  | cons name rest ih =>
    have hunf : findHighest st (name :: rest) acc = findHighest st rest (fhStep st name acc) := rfl
    rw [hunf] at h ⊢
    rcases ih (fhStep st name acc) h with heq | ⟨hm, jobs2, hl, hmx, hlt⟩
    · -- the tail left the accumulator alone; analyse the head step
      rw [heq] at h ⊢
      cases hlk : lookupQ st.queues name with
      | none =>
        rw [fhStep_none acc hlk] at h ⊢
        exact Or.inl rfl
      | some jobs =>
        cases hmax : maxPrio jobs with
        | none =>
          rw [fhStep_emptyQ acc hlk hmax] at h ⊢
          exact Or.inl rfl
        | some p =>
          by_cases hcmp : acc.1 < p
          · rw [fhStep_gt acc hlk hmax hcmp] at h ⊢
            have hq2 : name = q := by simpa using h
            subst hq2
            exact Or.inr ⟨List.mem_cons_self name rest, jobs, hlk, hmax, hcmp⟩
          · rw [fhStep_le acc hlk hmax hcmp] at h ⊢
            exact Or.inl rfl
    · refine Or.inr ⟨List.mem_cons_of_mem name hm, jobs2, hl, hmx, ?_⟩
      exact Nat.lt_of_le_of_lt (fhStep_fst_ge st name acc) hlt

theorem findHighest_snd_some (st : BrokerState) (names : List String)
    (hp : Nat) (q : String) :
    (findHighest st names (hp, some q)).2 ≠ none := by
  induction names generalizing hp q with
  | nil => intro hc; cases hc
  | cons name rest ih =>
    show (findHighest st rest (fhStep st name (hp, some q))).2 ≠ none
    cases hlk : lookupQ st.queues name with
    | none => rw [fhStep_none _ hlk]; exact ih hp q
    | some jobs =>
      cases hmax : maxPrio jobs with
      | none => rw [fhStep_emptyQ _ hlk hmax]; exact ih hp q
      | some p =>
        by_cases hcmp : (hp, some q).1 < p
        · rw [fhStep_gt _ hlk hmax hcmp]; exact ih p name
        · rw [fhStep_le _ hlk hmax hcmp]; exact ih hp q

theorem findHighest_none (st : BrokerState) (names : List String)
    (acc : Nat × Option String)
    (h : (findHighest st names acc).2 = none) :
    ∀ q ∈ names, ∀ jobs, lookupQ st.queues q = some jobs →
      ∀ j ∈ jobs, j.priority ≤ acc.1 := by
  induction names generalizing acc with
  | nil => intro q hqm; cases hqm
  | cons name rest ih =>
    have hunf : findHighest st (name :: rest) acc = findHighest st rest (fhStep st name acc) := rfl
    rw [hunf] at h
    intro q hqm jobs hlk j hj
    rcases List.mem_cons.mp hqm with rfl | hqm2
    · -- the head queue: its maximum cannot have beaten acc.1, else the final
      -- accumulator would carry a queue name
      cases hmax : maxPrio jobs with
      | none => rw [maxPrio_eq_none.mp hmax] at hj; cases hj
      | some p =>
        by_cases hcmp : acc.1 < p
        · rw [fhStep_gt acc hlk hmax hcmp] at h
          exact absurd h (findHighest_snd_some st rest p q)
        · exact Nat.le_trans (maxPrio_le hmax j hj) (Nat.le_of_not_lt hcmp)
    · cases hlk2 : lookupQ st.queues name with
      | none =>
        rw [fhStep_none acc hlk2] at h
        exact ih acc h q hqm2 jobs hlk j hj
      | some jobs2 =>
        cases hmax2 : maxPrio jobs2 with
        | none =>
          rw [fhStep_emptyQ acc hlk2 hmax2] at h
          exact ih acc h q hqm2 jobs hlk j hj
        | some p2 =>
          by_cases hcmp2 : acc.1 < p2
          · rw [fhStep_gt acc hlk2 hmax2 hcmp2] at h
            exact absurd h (findHighest_snd_some st rest p2 name)
          · rw [fhStep_le acc hlk2 hmax2 hcmp2] at h
            exact ih acc h q hqm2 jobs hlk j hj

/-- Claim C1, amended: a `get` naming a list of queues returns an ok
response describing a job of maximal priority among all jobs in the named
queues provided some named queue holds a job of positive priority; when no
named queue holds a positive-priority job (in particular when a priority-0
job is the only job available) and wait is not true, the response is
no-job. -/
theorem claim_C1_amended (st : BrokerState) (clientId : Nat)
    (names : List String) (wait : Bool) :
    ((∃ q ∈ names, ∃ jobs, lookupQ st.queues q = some jobs ∧
        ∃ j ∈ jobs, 0 < j.priority) →
      ∃ (qname : String) (jobs : List Job) (j : Job) (st2 : BrokerState),
        qname ∈ names ∧ lookupQ st.queues qname = some jobs ∧ j ∈ jobs ∧
        brokerGet st clientId names wait =
          some (st2, [BrokerMsg.response (BrokerResp.okJob j.id j.priority qname j.task)]) ∧
        (∀ q2 ∈ names, ∀ jobs2, lookupQ st.queues q2 = some jobs2 →
          ∀ j2 ∈ jobs2, j2.priority ≤ j.priority)) ∧
    ((¬ ∃ q ∈ names, ∃ jobs, lookupQ st.queues q = some jobs ∧
        ∃ j ∈ jobs, 0 < j.priority) → wait = false →
      brokerGet st clientId names wait = some (st, [BrokerMsg.response BrokerResp.noJob])) := by
  constructor
  · intro ⟨q, hqm, jobs, hlk, j, hj, hjpos⟩
    rcases hfh2 : findHighest st names (0, none) with ⟨hp0, hq0⟩
    cases hq0 with
    | none =>
      have hsnd : (findHighest st names (0, none)).2 = none := by rw [hfh2]
      exact absurd (findHighest_none st names (0, none) hsnd q hqm jobs hlk j hj)
        (Nat.not_le_of_lt hjpos)
    | some qname =>
      have hsnd : (findHighest st names (0, none)).2 = some qname := by rw [hfh2]
      rcases findHighest_some st names (0, none) qname hsnd with heq | ⟨hm, jobs2, hl2, hmx2, _⟩
      · rw [hfh2] at heq; cases heq
      · rw [hfh2] at hmx2
        obtain ⟨jbest, hjbm, hjbp⟩ := maxPrio_mem hmx2
        have hex : ∃ x ∈ jobs2, (fun jj => jj.priority == hp0) x = true :=
          ⟨jbest, hjbm, by simp [hjbp]⟩
        obtain ⟨jsel, rest, hext, hpsel, hmsel⟩ := extractFirst_of_exists hex
        have hpsel2 : jsel.priority = hp0 := by simpa using hpsel
        refine ⟨qname, jobs2, jsel,
          { st with queues := setQ st.queues qname rest,
                    clientJobs := pushClientJob st.clientJobs clientId jsel },
          hm, hl2, hmsel, ?_, ?_⟩
        · simp only [brokerGet, hfh2, hl2, hext]
        · intro q2 hq2 jobs3 hlk3 j2 hj2
          have := findHighest_ubound st names (0, none) q2 hq2 jobs3 hlk3 j2 hj2
          rw [hfh2] at this
          omega
  · intro hno hwait
    rcases hfh2 : findHighest st names (0, none) with ⟨hp0, hq0⟩
    cases hq0 with
    | none =>
      subst hwait
      simp only [brokerGet, hfh2, Bool.false_eq_true, if_false]
    | some qname =>
      exfalso
      have hsnd : (findHighest st names (0, none)).2 = some qname := by rw [hfh2]
      rcases findHighest_some st names (0, none) qname hsnd with heq | ⟨hm, jobs2, hl2, hmx2, hpos⟩
      · rw [hfh2] at heq; cases heq
      · rw [hfh2] at hmx2 hpos
        obtain ⟨jbest, hjbm, hjbp⟩ := maxPrio_mem hmx2
        exact hno ⟨qname, hm, jobs2, hl2, jbest, hjbm, by simp at hpos; omega⟩

/-- Counterexample to claim C1 as stated: with queue q holding exactly one
job, of priority 0, a `get` for q without wait answers no-job instead of
handing out that job (the selection loop starts its best priority at 0 and
only accepts strictly greater ones). -/
theorem claim_C1_counterexample :
    brokerGet { clientJobs := [], queues := [("q", [{ id := 1, queue := "q", priority := 0, task := "t" }])],
                waitingClients := [] } 7 ["q"] false =
      some ({ clientJobs := [], queues := [("q", [{ id := 1, queue := "q", priority := 0, task := "t" }])],
              waitingClients := [] }, [BrokerMsg.response BrokerResp.noJob]) ∧
    lookupQ [("q", [{ id := 1, queue := "q", priority := 0, task := "t" }])] "q" =
      some [{ id := 1, queue := "q", priority := 0, task := "t" }] := by
  constructor <;> rfl

end JobBroker

namespace SpeedDaemon

/-! Model of ServerState::generate_tickets of src/server_06.rs (the
speed-daemon): per-plate per-day ticket deduplication. -/

/-- An observation as assembled by read_plate. -/
structure Obs where
  plate : String
  timestamp : Nat
  road : Nat
  mile : Nat
deriving DecidableEq, Repr

/-- The ServerMessage::Ticket payload of server_06.rs. -/
structure Ticket where
  recipient : Option Nat
  plate : String
  road : Nat
  mile1 : Nat
  timestamp1 : Nat
  mile2 : Nat
  timestamp2 : Nat
  speed : Nat
deriving DecidableEq, Repr

/-- The fields of struct ServerState that generate_tickets touches:
dispatchers (id and roads), the pending ticket queue, and the per-plate
consumed-day lists. -/
structure SpeedState where
  dispatchers : List (Nat × List Nat)
  ticketQueue : List Ticket
  ticketSent : List (String × List Nat)
deriving DecidableEq, Repr

/-- The (start_day..=end_day).collect() list. -/
def dayRange (s e : Nat) : List Nat := (List.range (e + 1 - s)).map (s + ·)

/-- ServerState::get_dispatcher: the first dispatcher serving the road. -/
def getDispatcher (ds : List (Nat × List Nat)) (road : Nat) : Option Nat :=
  (ds.find? (fun d => d.2.contains road)).map (fun d => d.1)

/-- ticket_sent.get(plate), defaulting to the empty day list. -/
def consumedDays (st : SpeedState) (plate : String) : List Nat :=
  ((st.ticketSent.find? (fun kv => kv.1 == plate)).map (fun kv => kv.2)).getD []

/-- ticket_sent.entry(plate).and_modify(|days| days.extend(..)).or_insert(..). -/
def upsertSent (l : List (String × List Nat)) (plate : String) (range : List Nat) :
    List (String × List Nat) :=
  match l with
  | [] => [(plate, range)]
  | kv :: rest =>
    if kv.1 == plate then (kv.1, kv.2 ++ range) :: rest
    else kv :: upsertSent rest plate range

/-- ServerState::generate_tickets of server_06.rs: returns the new state and
the tickets handed back for immediate sending (a dispatcherless ticket goes
to the queue instead). -/
def generateTickets (st : SpeedState) (obs1 obs2 : Obs) (speed : Nat) :
    SpeedState × List Ticket :=
  let startTs := min obs1.timestamp obs2.timestamp
  let endTs := max obs1.timestamp obs2.timestamp
  let startDay := startTs / 86400
  let endDay := endTs / 86400
  if (consumedDays st obs1.plate).any (fun day => startDay ≤ day && day ≤ endDay) then
    (st, [])
  else
    let st2 := { st with ticketSent := upsertSent st.ticketSent obs1.plate (dayRange startDay endDay) }
    let dispatcher := getDispatcher st2.dispatchers obs1.road
    let miles := if obs1.timestamp < obs2.timestamp then (obs1.mile, obs2.mile)
                 else (obs2.mile, obs1.mile)
    let ticket : Ticket :=
      { recipient := dispatcher, plate := obs1.plate, road := obs1.road,
        mile1 := miles.1, timestamp1 := startTs, mile2 := miles.2,
        timestamp2 := endTs, speed := 100 * speed }
    match dispatcher with
    | some _ => (st2, [ticket])
    | none => ({ st2 with ticketQueue := st2.ticketQueue ++ [ticket] }, [])

/-- The tickets a call to generate_tickets creates: those returned for
sending plus those appended to the pending queue. -/
def genStep (st : SpeedState) (obs1 obs2 : Obs) (speed : Nat) :
    SpeedState × List Ticket :=
  let (st2, sent) := generateTickets st obs1 obs2 speed
  (st2, sent ++ st2.ticketQueue.drop st.ticketQueue.length)

/-- A run of generate_tickets calls, collecting every ticket created. -/
def runGen (st : SpeedState) : List (Obs × Obs × Nat) → SpeedState × List Ticket
  | [] => (st, [])
  | (o1, o2, sp) :: calls =>
    let (st2, gen) := genStep st o1 o2 sp
    let (st3, tks) := runGen st2 calls
    (st3, gen ++ tks)

/-- The calendar days an emitted ticket spans. -/
def tDays (t : Ticket) : List Nat :=
  dayRange (t.timestamp1 / 86400) (t.timestamp2 / 86400)

/-- Two tickets for the same plate must consume disjoint day sets. -/
def tDisjoint (t1 t2 : Ticket) : Prop :=
  t1.plate = t2.plate → ∀ d ∈ tDays t1, d ∉ tDays t2

theorem dayRange_mem {s e d : Nat} : d ∈ dayRange s e ↔ s ≤ d ∧ d ≤ e := by
  simp only [dayRange, List.mem_map, List.mem_range]
  constructor
  · rintro ⟨i, hi, rfl⟩; omega
  · rintro ⟨h1, h2⟩; exact ⟨d - s, by omega, by omega⟩

theorem consumedDays_upsert_self (l : List (String × List Nat)) (plate : String)
    (range : List Nat) :
    ((( upsertSent l plate range).find? (fun kv => kv.1 == plate)).map
      (fun kv => kv.2)).getD [] =
      (((l.find? (fun kv => kv.1 == plate)).map (fun kv => kv.2)).getD []) ++ range := by
  induction l with
  | nil => simp [upsertSent]
  | cons kv rest ih =>
    by_cases hk : kv.1 == plate
    · simp [upsertSent, hk, List.find?]
    · simp only [upsertSent, hk, Bool.false_eq_true, if_false]
      simp only [List.find?, hk]
      exact ih

theorem consumedDays_upsert_other (l : List (String × List Nat)) (plate p2 : String)
    (range : List Nat) (hne : p2 ≠ plate) :
    ((upsertSent l plate range).find? (fun kv => kv.1 == p2)).map (fun kv => kv.2) =
      (l.find? (fun kv => kv.1 == p2)).map (fun kv => kv.2) := by
  have hpn : (plate == p2) = false := beq_eq_false_iff_ne.mpr (Ne.symm hne)
  induction l with
  | nil => simp [upsertSent, List.find?, hpn]
  | cons kv rest ih =>
    by_cases hk : kv.1 = plate
    · have h2 : (kv.1 == plate) = true := beq_iff_eq.mpr hk
      have h3 : (kv.1 == p2) = false := beq_eq_false_iff_ne.mpr (hk ▸ (Ne.symm hne))
      simp [upsertSent, h2, h3, List.find?]
    · have h2 : (kv.1 == plate) = false := beq_eq_false_iff_ne.mpr hk
      simp only [upsertSent, h2, Bool.false_eq_true, if_false, List.find?]
      cases hk2 : (kv.1 == p2 : Bool) with
      | true => simp
      | false => exact ih

theorem consumedDays_upsert_st (st : SpeedState) (plate : String) (range : List Nat) :
    consumedDays { st with ticketSent := upsertSent st.ticketSent plate range } plate =
      consumedDays st plate ++ range := by
  simpa [consumedDays] using consumedDays_upsert_self st.ticketSent plate range

theorem consumedDays_upsert_st_other (st : SpeedState) (plate p2 : String)
    (range : List Nat) (hne : p2 ≠ plate) :
    consumedDays { st with ticketSent := upsertSent st.ticketSent plate range } p2 =
      consumedDays st p2 := by
  simp only [consumedDays]
  rw [consumedDays_upsert_other st.ticketSent plate p2 range hne]

/-- The overlap condition generate_tickets tests: some already-consumed day
of the plate falls in the candidate ticket's day span. -/
def overlaps (st : SpeedState) (obs1 obs2 : Obs) : Prop :=
  ∃ d ∈ consumedDays st obs1.plate,
    min obs1.timestamp obs2.timestamp / 86400 ≤ d ∧
    d ≤ max obs1.timestamp obs2.timestamp / 86400

instance (st : SpeedState) (obs1 obs2 : Obs) : Decidable (overlaps st obs1 obs2) := by
  unfold overlaps
  infer_instance

theorem generateTickets_skip (st : SpeedState) (o1 o2 : Obs) (sp : Nat)
    (h : overlaps st o1 o2) : generateTickets st o1 o2 sp = (st, []) := by
  obtain ⟨d, hd, h1, h2⟩ := h
  have hany : (consumedDays st o1.plate).any
      (fun day => min o1.timestamp o2.timestamp / 86400 ≤ day &&
        day ≤ max o1.timestamp o2.timestamp / 86400) = true :=
    List.any_eq_true.mpr ⟨d, hd, by simp [h1, h2]⟩
  simp only [generateTickets, hany, if_true]

theorem genStep_skip (st : SpeedState) (o1 o2 : Obs) (sp : Nat)
    (h : overlaps st o1 o2) : genStep st o1 o2 sp = (st, []) := by
  simp [genStep, generateTickets_skip st o1 o2 sp h, List.drop_length]

theorem genStep_new (st : SpeedState) (o1 o2 : Obs) (sp : Nat)
    (h : ¬ overlaps st o1 o2) :
    ∃ (t : Ticket) (st2 : SpeedState), genStep st o1 o2 sp = (st2, [t]) ∧
      t.plate = o1.plate ∧
      tDays t = dayRange (min o1.timestamp o2.timestamp / 86400)
        (max o1.timestamp o2.timestamp / 86400) ∧
      consumedDays st2 o1.plate =
        consumedDays st o1.plate ++ dayRange (min o1.timestamp o2.timestamp / 86400)
          (max o1.timestamp o2.timestamp / 86400) ∧
      (∀ p, p ≠ o1.plate → consumedDays st2 p = consumedDays st p) := by
  have hany : (consumedDays st o1.plate).any
      (fun day => min o1.timestamp o2.timestamp / 86400 ≤ day &&
        day ≤ max o1.timestamp o2.timestamp / 86400) = false := by
    rw [← Bool.not_eq_true]
    intro hc
    obtain ⟨d, hd, hcond⟩ := List.any_eq_true.mp hc
    exact h ⟨d, hd, by simpa using hcond⟩
  cases hdisp : getDispatcher st.dispatchers o1.road with
  | some did =>
    refine ⟨{ recipient := some did, plate := o1.plate, road := o1.road,
              mile1 := (if o1.timestamp < o2.timestamp then (o1.mile, o2.mile)
                        else (o2.mile, o1.mile)).1,
              timestamp1 := min o1.timestamp o2.timestamp,
              mile2 := (if o1.timestamp < o2.timestamp then (o1.mile, o2.mile)
                        else (o2.mile, o1.mile)).2,
              timestamp2 := max o1.timestamp o2.timestamp, speed := 100 * sp },
           { st with
             ticketSent :=
               upsertSent st.ticketSent o1.plate
                 (dayRange (min o1.timestamp o2.timestamp / 86400)
                   (max o1.timestamp o2.timestamp / 86400)) }, ?_, rfl, rfl, ?_, ?_⟩
    · simp only [genStep, generateTickets, hany, Bool.false_eq_true, if_false, hdisp]
      simp [List.drop_length]
    · exact consumedDays_upsert_st st o1.plate _
    · intro p hp; exact consumedDays_upsert_st_other st o1.plate p _ hp
  | none =>
    refine ⟨{ recipient := none, plate := o1.plate, road := o1.road,
              mile1 := (if o1.timestamp < o2.timestamp then (o1.mile, o2.mile)
                        else (o2.mile, o1.mile)).1,
              timestamp1 := min o1.timestamp o2.timestamp,
              mile2 := (if o1.timestamp < o2.timestamp then (o1.mile, o2.mile)
                        else (o2.mile, o1.mile)).2,
              timestamp2 := max o1.timestamp o2.timestamp, speed := 100 * sp },
           { st with
             ticketSent :=
               upsertSent st.ticketSent o1.plate
                 (dayRange (min o1.timestamp o2.timestamp / 86400)
                   (max o1.timestamp o2.timestamp / 86400)),
             ticketQueue := st.ticketQueue ++
               [{ recipient := none, plate := o1.plate, road := o1.road,
                  mile1 := (if o1.timestamp < o2.timestamp then (o1.mile, o2.mile)
                            else (o2.mile, o1.mile)).1,
                  timestamp1 := min o1.timestamp o2.timestamp,
                  mile2 := (if o1.timestamp < o2.timestamp then (o1.mile, o2.mile)
                            else (o2.mile, o1.mile)).2,
                  timestamp2 := max o1.timestamp o2.timestamp, speed := 100 * sp }] },
           ?_, rfl, rfl, ?_, ?_⟩
    · simp only [genStep, generateTickets, hany, Bool.false_eq_true, if_false, hdisp]
      simp [List.drop_length]
    · exact consumedDays_upsert_st st o1.plate _
    · intro p hp; exact consumedDays_upsert_st_other st o1.plate p _ hp

theorem genStep_mono (st : SpeedState) (o1 o2 : Obs) (sp : Nat) (p : String)
    (d : Nat) (hd : d ∈ consumedDays st p) :
    d ∈ consumedDays (genStep st o1 o2 sp).1 p := by
  by_cases h : overlaps st o1 o2
  · rw [genStep_skip st o1 o2 sp h]; exact hd
  · obtain ⟨t, st2, heq, _, _, hself, hother⟩ := genStep_new st o1 o2 sp h
    rw [heq]
    by_cases hp : p = o1.plate
    · subst hp; rw [hself]; exact List.mem_append_left _ hd
    · rw [hother p hp]; exact hd

theorem runGen_inv (calls : List (Obs × Obs × Nat)) (st : SpeedState) :
    (∀ t ∈ (runGen st calls).2, ∀ d ∈ tDays t, d ∉ consumedDays st t.plate) ∧
    (∀ t ∈ (runGen st calls).2, ∀ d ∈ tDays t, d ∈ consumedDays (runGen st calls).1 t.plate) ∧
    List.Pairwise tDisjoint (runGen st calls).2 ∧
    (∀ p d, d ∈ consumedDays st p → d ∈ consumedDays (runGen st calls).1 p) := by
  induction calls generalizing st with
  | nil =>
    exact ⟨fun t ht => absurd ht (List.not_mem_nil t),
      fun t ht => absurd ht (List.not_mem_nil t),
      List.Pairwise.nil, fun p d hd => hd⟩
  | cons call calls ih =>
    obtain ⟨o1, o2, sp⟩ := call
    have hunf : runGen st ((o1, o2, sp) :: calls) =
        ((runGen (genStep st o1 o2 sp).1 calls).1,
          (genStep st o1 o2 sp).2 ++ (runGen (genStep st o1 o2 sp).1 calls).2) := by
      show (let p := genStep st o1 o2 sp
            let q := runGen p.1 calls
            (q.1, p.2 ++ q.2)) = _
      rfl
    by_cases hov : overlaps st o1 o2
    · rw [hunf, genStep_skip st o1 o2 sp hov]
      obtain ⟨ih1, ih2, ih3, ih4⟩ := ih st
      exact ⟨fun t ht => ih1 t (by simpa using ht),
        fun t ht => ih2 t (by simpa using ht),
        by simpa using ih3, ih4⟩
    · obtain ⟨t, st2, heq, hplate, hdays, hself, hother⟩ := genStep_new st o1 o2 sp hov
      rw [hunf, heq]
      obtain ⟨ih1, ih2, ih3, ih4⟩ := ih st2
      rw [heq] at hunf
      simp only []
      have hfresh : ∀ d ∈ tDays t, d ∉ consumedDays st t.plate := by
        intro d hd hc
        rw [hdays] at hd
        rw [hplate] at hc
        exact hov ⟨d, hc, dayRange_mem.mp hd⟩
      have hin2 : ∀ d ∈ tDays t, d ∈ consumedDays st2 t.plate := by
        intro d hd
        rw [hdays] at hd
        rw [hplate, hself]
        exact List.mem_append_right _ hd
      constructor
      · intro t2 ht2 d hd
        rcases List.mem_cons.mp ht2 with rfl | ht2b
        · exact hfresh d hd
        · intro hc
          have hst2 : d ∈ consumedDays st2 t2.plate := by
            by_cases hp : t2.plate = o1.plate
            · rw [hp, hself]; exact List.mem_append_left _ (hp ▸ hc)
            · rw [hother t2.plate hp]; exact hc
          exact ih1 t2 ht2b d hd hst2
      constructor
      · intro t2 ht2 d hd
        rcases List.mem_cons.mp ht2 with rfl | ht2b
        · exact ih4 t2.plate d (hin2 d hd)
        · exact ih2 t2 ht2b d hd
      constructor
      · refine List.Pairwise.cons ?_ ih3
        intro t2 ht2 hpl d hd
        intro hc
        have hd2 : d ∈ consumedDays st2 t2.plate := hpl ▸ hin2 d hd
        exact ih1 t2 ht2 d hc hd2
      · intro p d hd
        have : d ∈ consumedDays st2 p := by
          have := genStep_mono st o1 o2 sp p d hd
          rw [heq] at this
          exact this
        exact ih4 p d this

/-- Claim C2: over any run of generate_tickets calls, the day spans of the
tickets generated for one plate are pairwise disjoint; every generated
ticket marks each day of its inclusive span consumed in the final state; and
a call whose candidate span touches an already-consumed day of the plate
generates no ticket and leaves the state unchanged. -/
theorem claim_C2_ticket_dedup (st0 : SpeedState) (calls : List (Obs × Obs × Nat))
    (st : SpeedState) (o1 o2 : Obs) (sp : Nat) :
    List.Pairwise tDisjoint (runGen st0 calls).2 ∧
    (∀ t ∈ (runGen st0 calls).2, ∀ d ∈ tDays t,
      d ∈ consumedDays (runGen st0 calls).1 t.plate) ∧
    (overlaps st o1 o2 → genStep st o1 o2 sp = (st, [])) :=
  ⟨(runGen_inv calls st0).2.2.1, (runGen_inv calls st0).2.1,
    genStep_skip st o1 o2 sp⟩

end SpeedDaemon

namespace PestControl

/-! Model of ServerMessage of src/server_11.rs (the pest-control gateway):
frame encoding (to_bytes) and payload parsing (parse).  Rust Strings are
modelled by their byte lists (String::from_utf8_lossy is the identity on the
valid UTF-8 bytes a Rust String always holds); the index-threading parsers
of the source are written in the equivalent consume-the-remaining-bytes
style, and their &'static str errors are Except.error values. -/

/-- struct PopulationTarget. -/
structure PopTarget where
  species : List Nat
  minC : Nat
  maxC : Nat
deriving DecidableEq, Repr

/-- struct PopulationObs. -/
structure PopObs where
  species : List Nat
  count : Nat
deriving DecidableEq, Repr

/-- enum ServerMessage of server_11.rs. -/
inductive PcMsg where
  | hello (protocol : List Nat) (version : Nat) : PcMsg
  | errorMsg (msg : List Nat) : PcMsg
  | okMsg : PcMsg
  | dialAuthority (site : Nat) : PcMsg
  | targetPopulations (site : Nat) (targets : List PopTarget) : PcMsg
  | createPolicy (species : List Nat) (action : Nat) : PcMsg
  | deletePolicy (policy : Nat) : PcMsg
  | policyResult (policy : Nat) : PcMsg
  | siteVisit (site : Nat) (observations : List PopObs) : PcMsg
deriving DecidableEq, Repr

/-- u32::to_be_bytes after the `as u32` cast: the four big-endian bytes of
`n mod 2^32`. -/
def u32be (n : Nat) : List Nat :=
  [n / 2 ^ 24 % 256, n / 2 ^ 16 % 256, n / 2 ^ 8 % 256, n % 256]

/-- ServerMessage::str_to_bytes: u32 length prefix then the bytes. -/
def strBytes (s : List Nat) : List Nat := u32be s.length ++ s

/-- The bytes of one PopulationTarget inside target_population_to_bytes. -/
def tEnc (t : PopTarget) : List Nat := strBytes t.species ++ u32be t.minC ++ u32be t.maxC

/-- ServerMessage::target_population_to_bytes. -/
def tpBytes (ts : List PopTarget) : List Nat := u32be ts.length ++ ts.flatMap tEnc

/-- The bytes of one PopulationObs inside population_obs_to_bytes. -/
def oEnc (o : PopObs) : List Nat := strBytes o.species ++ u32be o.count

/-- ServerMessage::population_obs_to_bytes. -/
def obsBytes (os : List PopObs) : List Nat := u32be os.length ++ os.flatMap oEnc

/-- The (type byte, payload bytes) pair the match in to_bytes builds. -/
def PcMsg.payload : PcMsg → Nat × List Nat
  | .hello p v => (0x50, strBytes p ++ u32be v)
  | .errorMsg m => (0x51, strBytes m)
  | .okMsg => (0x52, [])
  | .dialAuthority s => (0x53, u32be s)
  | .targetPopulations s ts => (0x54, u32be s ++ tpBytes ts)
  | .createPolicy sp a => (0x55, strBytes sp ++ [a])
  | .deletePolicy p => (0x56, u32be p)
  | .policyResult p => (0x57, u32be p)
  | .siteVisit s os => (0x58, u32be s ++ obsBytes os)

/-- ServerMessage::to_bytes: type byte, u32 length of the whole frame, the
payload, and a checksum byte making the byte sum 0 mod 256 (the wrapping u8
fold of the source equals the plain sum mod 256). -/
def PcMsg.toBytes (m : PcMsg) : List Nat :=
  let bytes := m.payload.1 :: u32be (m.payload.2.length + 6) ++ m.payload.2
  bytes ++ [(256 - bytes.sum % 256) % 256]

/-- ServerMessage::parse_u8, consuming one byte. -/
def parseU8 : List Nat → Except String (Nat × List Nat)
  | [] => .error "Error parsing u8: not enough bytes to read"
  | b :: rest => .ok (b, rest)

/-- ServerMessage::parse_u32, consuming four big-endian bytes. -/
def parseU32 : List Nat → Except String (Nat × List Nat)
  | b0 :: b1 :: b2 :: b3 :: rest =>
    .ok (((b0 * 256 + b1) * 256 + b2) * 256 + b3, rest)
  | _ => .error "Error parsing u32: not enough bytes to read"

/-- ServerMessage::parse_str: u32 length then that many bytes. -/
def parseStr (l : List Nat) : Except String (List Nat × List Nat) := do
  let (n, rest) ← parseU32 l
  if n ≤ rest.length then .ok (rest.take n, rest.drop n)
  else .error "Error parsing str: not enough bytes to read"

/-- The loop of ServerMessage::parse_target_populations. -/
def parseTargets : Nat → List Nat → Except String (List PopTarget × List Nat)
  | 0, l => .ok ([], l)
  | n + 1, l => do
    let (sp, l1) ← parseStr l
    let (mn, l2) ← parseU32 l1
    let (mx, l3) ← parseU32 l2
    let (ts, l4) ← parseTargets n l3
    .ok (⟨sp, mn, mx⟩ :: ts, l4)

/-- ServerMessage::parse_target_populations. -/
def parseTargetPopulations (l : List Nat) : Except String (List PopTarget × List Nat) := do
  let (n, rest) ← parseU32 l
  parseTargets n rest

/-- The loop of ServerMessage::parse_population_obs, carrying the
observations parsed so far for the conflicting-counts check. -/
def parseObsLoop : Nat → List PopObs → List Nat → Except String (List PopObs × List Nat)
  | 0, acc, l => .ok (acc, l)
  | n + 1, acc, l => do
    let (sp, l1) ← parseStr l
    let (c, l2) ← parseU32 l1
    if acc.all (fun o => !(o.species == sp) || (o.count == c)) then
      parseObsLoop n (acc ++ [⟨sp, c⟩]) l2
    else
      .error "Error in population observation: conflicting counts"

/-- ServerMessage::parse_population_obs. -/
def parsePopulationObs (l : List Nat) : Except String (List PopObs × List Nat) := do
  let (n, rest) ← parseU32 l
  parseObsLoop n [] rest

/-- ServerMessage::parse: dispatch on the type byte and require the payload
to be consumed exactly. -/
def PcMsg.parse (msgType : Nat) (data : List Nat) : Except String PcMsg :=
  match msgType with
  | 0x50 => do
    let (p, r1) ← parseStr data
    let (v, r2) ← parseU32 r1
    if r2 = [] then .ok (.hello p v)
    else .error "Error parsing Hello: found additional data"
  | 0x51 => do
    let (m, r1) ← parseStr data
    if r1 = [] then .ok (.errorMsg m)
    else .error "Error parsing Error: found additional data"
  | 0x52 =>
    if data = [] then .ok .okMsg
    else .error "Error parsing Ok: found additional data"
  | 0x53 => do
    let (s, r1) ← parseU32 data
    if r1 = [] then .ok (.dialAuthority s)
    else .error "Error parsing DialAuthority: found additional data"
  | 0x54 => do
    let (s, r1) ← parseU32 data
    let (ts, r2) ← parseTargetPopulations r1
    if r2 = [] then .ok (.targetPopulations s ts)
    else .error "Error parsing TargetPopulations: found additional data"
  | 0x55 => do
    let (sp, r1) ← parseStr data
    let (a, r2) ← parseU8 r1
    if r2 = [] then .ok (.createPolicy sp a)
    else .error "Error parsing CreatePolicy: found additional data"
  | 0x56 => do
    let (p, r1) ← parseU32 data
    if r1 = [] then .ok (.deletePolicy p)
    else .error "Error parsing DeletePolicy: found additional data"
  | 0x57 => do
    let (p, r1) ← parseU32 data
    if r1 = [] then .ok (.policyResult p)
    else .error "Error parsing PolicyResult: found additional data"
  | 0x58 => do
    let (s, r1) ← parseU32 data
    let (os, r2) ← parsePopulationObs r1
    if r2 = [] then .ok (.siteVisit s os)
    else .error "Error parsing PopulationObs: found additional data"
  | _ => .error "Invalid message type"

/-- Well-formedness of a message as a value of the Rust types: u32 fields
below 2^32, string lengths and list lengths below 2^32. -/
def PcMsg.wf : PcMsg → Prop
  | .hello p v => p.length < 2 ^ 32 ∧ v < 2 ^ 32
  | .errorMsg m => m.length < 2 ^ 32
  | .okMsg => True
  | .dialAuthority s => s < 2 ^ 32
  | .targetPopulations s ts => s < 2 ^ 32 ∧ ts.length < 2 ^ 32 ∧
      ∀ t ∈ ts, t.species.length < 2 ^ 32 ∧ t.minC < 2 ^ 32 ∧ t.maxC < 2 ^ 32
  | .createPolicy sp _ => sp.length < 2 ^ 32
  | .deletePolicy p => p < 2 ^ 32
  | .policyResult p => p < 2 ^ 32
  | .siteVisit s os => s < 2 ^ 32 ∧ os.length < 2 ^ 32 ∧
      ∀ o ∈ os, o.species.length < 2 ^ 32 ∧ o.count < 2 ^ 32

/-- The parser's conflicting-counts restriction on a SiteVisit: two
observations of one species always carry the same count. -/
def PcMsg.conflictFree : PcMsg → Prop
  | .siteVisit _ os =>
    List.Pairwise (fun o1 o2 => o1.species = o2.species → o1.count = o2.count) os
  | _ => True

theorem exceptOk_bind {α β : Type} (a : α) (f : α → Except String β) :
    (Except.ok a : Except String α) >>= f = f a := rfl

theorem parseU32_u32be {n : Nat} (h : n < 2 ^ 32) (rest : List Nat) :
    parseU32 (u32be n ++ rest) = .ok (n, rest) := by
  simp only [u32be, List.cons_append, List.nil_append, parseU32]
  have hval : ((n / 2 ^ 24 % 256 * 256 + n / 2 ^ 16 % 256) * 256 + n / 2 ^ 8 % 256) * 256 +
      n % 256 = n := by omega
  rw [hval]

theorem parseStr_strBytes {s : List Nat} (h : s.length < 2 ^ 32) (rest : List Nat) :
    parseStr (strBytes s ++ rest) = .ok (s, rest) := by
  simp only [strBytes, List.append_assoc, parseStr, parseU32_u32be h, exceptOk_bind]
  rw [if_pos (by simp)]
  simp [List.take_left, List.drop_left]

theorem parseU8_cons (b : Nat) (rest : List Nat) :
    parseU8 (b :: rest) = .ok (b, rest) := rfl

theorem tEnc_assoc (t : PopTarget) (l : List Nat) :
    tEnc t ++ l = strBytes t.species ++ (u32be t.minC ++ (u32be t.maxC ++ l)) := by
  simp [tEnc, List.append_assoc]

theorem oEnc_assoc (o : PopObs) (l : List Nat) :
    oEnc o ++ l = strBytes o.species ++ (u32be o.count ++ l) := by
  simp [oEnc, List.append_assoc]

theorem parseTargets_round (ts : List PopTarget) (rest : List Nat)
    (hwf : ∀ t ∈ ts, t.species.length < 2 ^ 32 ∧ t.minC < 2 ^ 32 ∧ t.maxC < 2 ^ 32) :
    parseTargets ts.length (ts.flatMap tEnc ++ rest) = .ok (ts, rest) := by
  induction ts with
  | nil => simp [parseTargets]
  | cons t ts ih =>
    obtain ⟨hsp, hmn, hmx⟩ := hwf t (List.mem_cons_self t ts)
    have hrest := fun x hx => hwf x (List.mem_cons_of_mem t hx)
    rw [List.flatMap_cons, List.append_assoc, tEnc_assoc]
    simp only [List.length_cons, parseTargets]
    rw [parseStr_strBytes hsp, exceptOk_bind, parseU32_u32be hmn, exceptOk_bind,
      parseU32_u32be hmx, exceptOk_bind, ih hrest, exceptOk_bind]

theorem parseTargetPopulations_round (ts : List PopTarget) (rest : List Nat)
    (hlen : ts.length < 2 ^ 32)
    (hwf : ∀ t ∈ ts, t.species.length < 2 ^ 32 ∧ t.minC < 2 ^ 32 ∧ t.maxC < 2 ^ 32) :
    parseTargetPopulations (tpBytes ts ++ rest) = .ok (ts, rest) := by
  rw [tpBytes, List.append_assoc]
  rw [parseTargetPopulations]
  rw [parseU32_u32be hlen, exceptOk_bind]
  show parseTargets ts.length (ts.flatMap tEnc ++ rest) = Except.ok (ts, rest)
  exact parseTargets_round ts rest hwf

theorem parseObsLoop_round (os : List PopObs) (acc : List PopObs) (rest : List Nat)
    (hwf : ∀ o ∈ os, o.species.length < 2 ^ 32 ∧ o.count < 2 ^ 32)
    (hcf : List.Pairwise (fun o1 o2 => o1.species = o2.species → o1.count = o2.count)
      (acc ++ os)) :
    parseObsLoop os.length acc (os.flatMap oEnc ++ rest) = .ok (acc ++ os, rest) := by
  induction os generalizing acc with
  | nil => simp [parseObsLoop]
  | cons o os ih =>
    obtain ⟨hsp, hc⟩ := hwf o (List.mem_cons_self o os)
    have hrest := fun x hx => hwf x (List.mem_cons_of_mem o hx)
    have hcheck : acc.all (fun a => !(a.species == o.species) || (a.count == o.count)) = true := by
      rw [List.all_eq_true]
      intro a ha
      have hrel := (List.pairwise_append.mp hcf).2.2 a ha o (List.mem_cons_self o os)
      by_cases hspq : a.species = o.species
      · simp [hrel hspq]
      · simp [beq_eq_false_iff_ne.mpr hspq]
    rw [List.flatMap_cons, List.append_assoc, oEnc_assoc]
    simp only [List.length_cons, parseObsLoop]
    rw [parseStr_strBytes hsp, exceptOk_bind, parseU32_u32be hc, exceptOk_bind]
    show (if acc.all (fun a => !(a.species == o.species) || (a.count == o.count)) then _ else _) = _
    rw [if_pos hcheck]
    have hcf2 : List.Pairwise (fun o1 o2 => o1.species = o2.species → o1.count = o2.count)
        ((acc ++ [o]) ++ os) := by
      rw [List.append_assoc, List.singleton_append]
      exact hcf
    have := ih (acc ++ [o]) hrest hcf2
    rw [this]
    rw [List.append_assoc, List.singleton_append]

theorem parsePopulationObs_round (os : List PopObs) (rest : List Nat)
    (hlen : os.length < 2 ^ 32)
    (hwf : ∀ o ∈ os, o.species.length < 2 ^ 32 ∧ o.count < 2 ^ 32)
    (hcf : List.Pairwise (fun o1 o2 => o1.species = o2.species → o1.count = o2.count) os) :
    parsePopulationObs (obsBytes os ++ rest) = .ok (os, rest) := by
  rw [obsBytes, List.append_assoc]
  rw [parsePopulationObs]
  rw [parseU32_u32be hlen, exceptOk_bind]
  show parseObsLoop os.length [] (os.flatMap oEnc ++ rest) = Except.ok (os, rest)
  have := parseObsLoop_round os [] rest hwf (by simpa using hcf)
  simpa using this

/-- The big-endian value of a byte list. -/
def beVal (l : List Nat) : Nat := l.foldl (fun a b => 256 * a + b) 0

theorem toBytes_head (m : PcMsg) : (m.toBytes).headD 0 = m.payload.1 := rfl

theorem toBytes_payload_slice (m : PcMsg) :
    ((m.toBytes).drop 5).dropLast = m.payload.2 := by
  show (m.payload.2 ++
    [(256 - (m.payload.1 :: u32be (m.payload.2.length + 6) ++ m.payload.2).sum % 256) % 256]).dropLast = m.payload.2
  rw [List.dropLast_concat]

theorem toBytes_checksum (m : PcMsg) : (m.toBytes).sum % 256 = 0 := by
  show ((m.payload.1 :: u32be (m.payload.2.length + 6) ++ m.payload.2) ++
    [(256 - (m.payload.1 :: u32be (m.payload.2.length + 6) ++ m.payload.2).sum % 256) % 256]).sum % 256 = 0
  rw [List.sum_append]
  simp only [List.sum_cons, List.sum_nil]
  omega

theorem toBytes_length (m : PcMsg) : (m.toBytes).length = m.payload.2.length + 6 := by
  show ((m.payload.1 :: u32be (m.payload.2.length + 6) ++ m.payload.2) ++ [_]).length = _
  simp [u32be]

theorem toBytes_lenField (m : PcMsg) :
    beVal (((m.toBytes).drop 1).take 4) = (m.payload.2.length + 6) % 2 ^ 32 := by
  show 256 * (256 * (256 * (256 * 0 + (m.payload.2.length + 6) / 2 ^ 24 % 256) +
      (m.payload.2.length + 6) / 2 ^ 16 % 256) + (m.payload.2.length + 6) / 2 ^ 8 % 256) +
      (m.payload.2.length + 6) % 256 = (m.payload.2.length + 6) % 2 ^ 32
  omega

instance (m : PcMsg) : Decidable m.wf := by
  cases m <;> simp only [PcMsg.wf] <;> infer_instance

instance (m : PcMsg) : Decidable m.conflictFree := by
  cases m <;> simp only [PcMsg.conflictFree] <;> infer_instance

theorem parse_toBytes (m : PcMsg) (hwf : m.wf) (hcf : m.conflictFree) :
    PcMsg.parse m.payload.1 m.payload.2 = .ok m := by
  cases m with
  | hello p v =>
    obtain ⟨hp, hv⟩ := hwf
    have h2 : parseU32 (u32be v) = .ok (v, []) := by
      have := parseU32_u32be hv []
      rwa [List.append_nil] at this
    show PcMsg.parse 0x50 (strBytes p ++ u32be v) = _
    simp [PcMsg.parse, parseStr_strBytes hp, h2, exceptOk_bind]
  | errorMsg msg =>
    have h1 : parseStr (strBytes msg) = .ok (msg, []) := by
      have := parseStr_strBytes hwf ([] : List Nat)
      rwa [List.append_nil] at this
    show PcMsg.parse 0x51 (strBytes msg) = _
    simp [PcMsg.parse, h1, exceptOk_bind]
  | okMsg =>
    show PcMsg.parse 0x52 [] = _
    simp [PcMsg.parse]
  | dialAuthority s =>
    have h1 : parseU32 (u32be s) = .ok (s, []) := by
      have := parseU32_u32be hwf []
      rwa [List.append_nil] at this
    show PcMsg.parse 0x53 (u32be s) = _
    simp [PcMsg.parse, h1, exceptOk_bind]
  | targetPopulations s ts =>
    obtain ⟨hs, hlen, helts⟩ := hwf
    have h2 : parseTargetPopulations (tpBytes ts) = .ok (ts, []) := by
      have := parseTargetPopulations_round ts [] hlen helts
      rwa [List.append_nil] at this
    show PcMsg.parse 0x54 (u32be s ++ tpBytes ts) = _
    simp [PcMsg.parse, parseU32_u32be hs, h2, exceptOk_bind]
  | createPolicy sp a =>
    show PcMsg.parse 0x55 (strBytes sp ++ [a]) = _
    simp [PcMsg.parse, parseStr_strBytes hwf, parseU8_cons, exceptOk_bind]
  | deletePolicy p =>
    have h1 : parseU32 (u32be p) = .ok (p, []) := by
      have := parseU32_u32be hwf []
      rwa [List.append_nil] at this
    show PcMsg.parse 0x56 (u32be p) = _
    simp [PcMsg.parse, h1, exceptOk_bind]
  | policyResult p =>
    have h1 : parseU32 (u32be p) = .ok (p, []) := by
      have := parseU32_u32be hwf []
      rwa [List.append_nil] at this
    show PcMsg.parse 0x57 (u32be p) = _
    simp [PcMsg.parse, h1, exceptOk_bind]
  | siteVisit s os =>
    obtain ⟨hs, hlen, helts⟩ := hwf
    have h2 : parsePopulationObs (obsBytes os) = .ok (os, []) := by
      have := parsePopulationObs_round os [] hlen helts hcf
      rwa [List.append_nil] at this
    show PcMsg.parse 0x58 (u32be s ++ obsBytes os) = _
    simp [PcMsg.parse, parseU32_u32be hs, h2, exceptOk_bind]

/-- Claim C4, amended: for every pest-control message whose strings, lists
and u32 fields fit their Rust types and whose SiteVisit observations are
free of conflicting counts, parsing the type byte and payload of the
encoded frame returns the message; the frame's byte sum is 0 mod 256; and
the frame's length field is the total frame length (type, length and
checksum included) reduced modulo 2^32 — the `as u32` cast in to_bytes
wraps, so the field equals the exact frame length precisely when the whole
frame is shorter than 2^32 bytes.  A SiteVisit with two different counts
for one species encodes fine but is rejected by the parser. -/
theorem claim_C4_amended (m : PcMsg) (hwf : m.wf) (hcf : m.conflictFree) :
    PcMsg.parse ((m.toBytes).headD 0) (((m.toBytes).drop 5).dropLast) = .ok m ∧
    (m.toBytes).sum % 256 = 0 ∧
    beVal (((m.toBytes).drop 1).take 4) = (m.toBytes).length % 2 ^ 32 ∧
    ((m.toBytes).length < 2 ^ 32 →
      beVal (((m.toBytes).drop 1).take 4) = (m.toBytes).length) := by
  have hmod : beVal (((m.toBytes).drop 1).take 4) = (m.toBytes).length % 2 ^ 32 := by
    rw [toBytes_lenField, toBytes_length]
  refine ⟨?_, toBytes_checksum m, hmod, ?_⟩
  · rw [toBytes_head, toBytes_payload_slice]
    exact parse_toBytes m hwf hcf
  · intro hlen
    rw [hmod]
    exact Nat.mod_eq_of_lt hlen

/-- Witness for C4 at the concrete message Hello{protocol=[0x70], version=1}. -/
theorem claim_C4_witness :
    PcMsg.parse (((PcMsg.hello [112] 1).toBytes).headD 0)
        ((((PcMsg.hello [112] 1).toBytes).drop 5).dropLast) = .ok (PcMsg.hello [112] 1) ∧
    ((PcMsg.hello [112] 1).toBytes).sum % 256 = 0 ∧
    beVal ((((PcMsg.hello [112] 1).toBytes).drop 1).take 4) =
      ((PcMsg.hello [112] 1).toBytes).length % 2 ^ 32 ∧
    (((PcMsg.hello [112] 1).toBytes).length < 2 ^ 32 →
      beVal ((((PcMsg.hello [112] 1).toBytes).drop 1).take 4) =
        ((PcMsg.hello [112] 1).toBytes).length) :=
  claim_C4_amended (PcMsg.hello [112] 1) (by decide) (by decide)

/-- Counterexample to claim C4 as stated: the SiteVisit message reporting
species [0x61] twice with counts 0 and 1 has all strings and lists shorter
than 2^32, yet parsing its own encoded frame fails with the
conflicting-counts error instead of returning the message. -/
theorem claim_C4_counterexample :
    PcMsg.parse (((PcMsg.siteVisit 0 [⟨[97], 0⟩, ⟨[97], 1⟩]).toBytes).headD 0)
        ((((PcMsg.siteVisit 0 [⟨[97], 0⟩, ⟨[97], 1⟩]).toBytes).drop 5).dropLast) =
      .error "Error in population observation: conflicting counts" ∧
    (PcMsg.siteVisit 0 [⟨[97], 0⟩, ⟨[97], 1⟩]).wf := by
  constructor
  · rfl
  · decide

end PestControl


namespace FileStore

/-! Model of the versioned file store of src/server_10.rs.  Paths are handled
as their '/'-separated segment lists (Dir::put_file and Dir::get_file peel
one segment per recursion step via split_once('/')); file names, path
segments and file contents are lists of characters. -/

/-- struct File of server_10.rs. -/
structure FileE where
  name : List Char
  revisions : List (List Char)
deriving DecidableEq, Repr

/-- struct Dir of server_10.rs. -/
inductive Dir where
  | mk (name : List Char) (subdirs : List Dir) (files : List FileE) : Dir

/-- The name field of a Dir. -/
def Dir.name : Dir → List Char
  | ⟨n, _, _⟩ => n

/-- The subdirs field of a Dir. -/
def Dir.subdirs : Dir → List Dir
  | ⟨_, s, _⟩ => s

/-- The files field of a Dir. -/
def Dir.files : Dir → List FileE
  | ⟨_, _, f⟩ => f

/-- In-place mutation through iter_mut().find: the first element satisfying
`p` is replaced by `a`. -/
def replaceFirstBy {α : Type} (p : α → Bool) (a : α) : List α → List α
  | [] => []
  | x :: xs => if p x then a :: xs else x :: replaceFirstBy p a xs

/-- Dir::get_file of server_10.rs, on the path's segment list. -/
def Dir.getFile : Dir → List (List Char) → Option FileE
  | ⟨_, _, files⟩, [name] => files.find? (fun f => f.name == name)
  | ⟨_, subdirs, _⟩, dirName :: rest =>
    match subdirs.find? (fun sd => sd.name == dirName) with
    | some sd => sd.getFile rest
    | none => none
  | _, [] => none

/-- Dir::put_file of server_10.rs, on the path's segment list: returns the
updated tree and the 1-indexed revision number reported to the client.  A
PUT whose payload equals the file's last revision pushes nothing.  (The
empty segment list cannot arise from a split path; it returns revision 0
untouched.) -/
def Dir.putFile : Dir → List (List Char) → List Char → Dir × Nat
  | ⟨n, subdirs, files⟩, [name], data =>
    match files.find? (fun f => f.name == name) with
    | some f =>
      let revs := if data == f.revisions.getLast! then f.revisions
                  else f.revisions ++ [data]
      (⟨n, subdirs, replaceFirstBy (fun f2 => f2.name == name) ⟨f.name, revs⟩ files⟩,
       revs.length)
    | none => (⟨n, subdirs, files ++ [⟨name, [data]⟩]⟩, 1)
  | ⟨n, subdirs, files⟩, dirName :: rest, data =>
    match subdirs.find? (fun sd => sd.name == dirName) with
    | some sd =>
      let r := Dir.putFile sd rest data
      (⟨n, replaceFirstBy (fun sd2 => sd2.name == dirName) r.1 subdirs, files⟩, r.2)
    | none =>
      let r := Dir.putFile ⟨dirName, [], []⟩ rest data
      (⟨n, subdirs ++ [r.1], files⟩, r.2)
  | d, [], _ => (d, 0)

theorem replaceFirstBy_self {α : Type} {p : α → Bool} {x : α} :
    ∀ {l : List α}, l.find? p = some x → replaceFirstBy p x l = l := by
  intro l
  induction l with
  | nil => intro h; cases h
  | cons a as ih =>
    intro h
    cases hp : p a with
    | true =>
      rw [List.find?_cons_of_pos _ hp] at h
      cases h
      simp [replaceFirstBy, hp]
    | false =>
      rw [List.find?_cons_of_neg _ (by simp [hp])] at h
      simp [replaceFirstBy, hp, ih h]

theorem replaceFirstBy_find? {α : Type} {p : α → Bool} {x a : α}
    (hpa : p a = true) :
    ∀ {l : List α}, l.find? p = some x → (replaceFirstBy p a l).find? p = some a := by
  intro l
  induction l with
  | nil => intro h; cases h
  | cons y ys ih =>
    intro h
    cases hp : p y with
    | true =>
      simp [replaceFirstBy, hp, List.find?_cons_of_pos _ hpa]
    | false =>
      rw [List.find?_cons_of_neg _ (by simp [hp])] at h
      simp only [replaceFirstBy, hp, Bool.false_eq_true, if_false]
      rw [List.find?_cons_of_neg _ (by simp [hp])]
      exact ih h

theorem find?_append_none {α : Type} {p : α → Bool} {l1 : List α} (l2 : List α)
    (h : l1.find? p = none) : (l1 ++ l2).find? p = l2.find? p := by
  induction l1 with
  | nil => rfl
  | cons a as ih =>
    cases hp : p a with
    | true => rw [List.find?_cons_of_pos _ hp] at h; cases h
    | false =>
      rw [List.find?_cons_of_neg _ (by simp [hp])] at h
      rw [List.cons_append, List.find?_cons_of_neg _ (by simp [hp])]
      exact ih h

theorem putFile_name (d : Dir) (p : List (List Char)) (data : List Char) :
    (d.putFile p data).1.name = d.name := by
  cases d with
  | mk n subdirs files =>
    cases p with
    | nil => rfl
    | cons head tail =>
      cases tail with
      | nil =>
        cases hf : files.find? (fun f => f.name == head) with
        | some f => simp only [Dir.putFile, hf]; rfl
        | none => simp only [Dir.putFile, hf]; rfl
      | cons seg rest =>
        cases hf : subdirs.find? (fun sd => sd.name == head) with
        | some sd => simp only [Dir.putFile, hf]; rfl
        | none => simp only [Dir.putFile, hf]; rfl

theorem getFile_fresh (dirName : List Char) (seg : List Char) (rest : List (List Char)) :
    Dir.getFile ⟨dirName, [], []⟩ (seg :: rest) = none := by
  cases rest with
  | nil => rfl
  | cons a b => rfl

/-- Claim C7: a PUT whose payload equals the file's latest stored revision
leaves the tree unchanged and reports the existing revision number; a PUT
with a different payload (or to an absent file) appends exactly one new
revision and reports the new 1-indexed revision count. -/
theorem claim_C7_put_idempotent (d : Dir) (name : List Char)
    (tail : List (List Char)) (data : List Char) :
    match d.getFile (name :: tail) with
    | some f =>
        (data = f.revisions.getLast! →
           d.putFile (name :: tail) data = (d, f.revisions.length)) ∧
        (data ≠ f.revisions.getLast! →
           (d.putFile (name :: tail) data).1.getFile (name :: tail) =
             some ⟨f.name, f.revisions ++ [data]⟩ ∧
           (d.putFile (name :: tail) data).2 = f.revisions.length + 1)
    | none =>
        (∃ fnew, (d.putFile (name :: tail) data).1.getFile (name :: tail) = some fnew ∧
           fnew.revisions = [data]) ∧
        (d.putFile (name :: tail) data).2 = 1 := by
  induction tail generalizing d name with
  | nil =>
    cases d with
    | mk n subdirs files =>
      cases hf : files.find? (fun f => f.name == name) with
      | some f =>
        have hget : Dir.getFile ⟨n, subdirs, files⟩ [name] = some f := by
          simp only [Dir.getFile, hf]
        simp only [hget]
        have hname : (f.name == name) = true := by
          have := List.find?_some hf
          simpa using this
        constructor
        · intro heq
          have hcond : (data == f.revisions.getLast!) = true := beq_iff_eq.mpr heq
          simp only [Dir.putFile, hf, hcond, if_true]
          have hfeta : (⟨f.name, f.revisions⟩ : FileE) = f := rfl
          rw [hfeta, replaceFirstBy_self hf]
        · intro hne
          have hcond : (data == f.revisions.getLast!) = false :=
            beq_eq_false_iff_ne.mpr hne
          simp only [Dir.putFile, hf, hcond, Bool.false_eq_true, if_false]
          constructor
          · simp only [Dir.getFile]
            rw [replaceFirstBy_find? (x := f) (by simpa using hname) hf]
          · simp [List.length_append]
      | none =>
        have hget : Dir.getFile ⟨n, subdirs, files⟩ [name] = none := by
          simp only [Dir.getFile, hf]
        simp only [hget]
        simp only [Dir.putFile, hf]
        constructor
        · refine ⟨⟨name, [data]⟩, ?_, rfl⟩
          simp only [Dir.getFile]
          rw [find?_append_none _ hf]
          simp [List.find?]
        · trivial
  | cons seg rest ih =>
    cases d with
    | mk n subdirs files =>
      cases hsd : subdirs.find? (fun sd => sd.name == name) with
      | some sd =>
        have hget : Dir.getFile ⟨n, subdirs, files⟩ (name :: seg :: rest) =
            sd.getFile (seg :: rest) := by
          simp only [Dir.getFile, hsd]
        have hname : (sd.name == name) = true := by
          have := List.find?_some hsd
          simpa using this
        have hr1name : ((sd.putFile (seg :: rest) data).1.name == name) = true := by
          rw [putFile_name]
          exact hname
        have hfind2 : (replaceFirstBy (fun sd2 => sd2.name == name)
            (sd.putFile (seg :: rest) data).1 subdirs).find? (fun sd2 => sd2.name == name) =
            some (sd.putFile (seg :: rest) data).1 :=
          replaceFirstBy_find? (p := fun sd2 : Dir => sd2.name == name) (by simpa using hr1name) hsd
        have ihsd := ih sd seg
        simp only [hget]
        cases hsub : sd.getFile (seg :: rest) with
        | some f =>
          simp only [hsub] at ihsd
          constructor
          · intro heq
            have hput := ihsd.1 heq
            simp only [Dir.putFile, hsd]
            rw [hput]
            rw [replaceFirstBy_self hsd]
          · intro hne
            have hput := ihsd.2 hne
            simp only [Dir.putFile, hsd]
            constructor
            · simp only [Dir.getFile, hfind2]
              exact hput.1
            · exact hput.2
        | none =>
          simp only [hsub] at ihsd
          constructor
          · obtain ⟨fnew, hfn, hrev⟩ := ihsd.1
            refine ⟨fnew, ?_, hrev⟩
            simp only [Dir.putFile, hsd]
            simp only [Dir.getFile, hfind2]
            exact hfn
          · simp only [Dir.putFile, hsd]
            exact ihsd.2
      | none =>
        have hget : Dir.getFile ⟨n, subdirs, files⟩ (name :: seg :: rest) = none := by
          simp only [Dir.getFile, hsd]
        have ihf := ih ⟨name, [], []⟩ seg
        rw [getFile_fresh] at ihf
        have hr1name : ((Dir.putFile ⟨name, [], []⟩ (seg :: rest) data).1.name == name) = true := by
          rw [putFile_name]
          simp [Dir.name]
        have hfind2 : (subdirs ++ [(Dir.putFile ⟨name, [], []⟩ (seg :: rest) data).1]).find?
            (fun sd2 => sd2.name == name) =
            some (Dir.putFile ⟨name, [], []⟩ (seg :: rest) data).1 := by
          rw [find?_append_none _ hsd]
          simp only [List.find?, hr1name]
        simp only [hget]
        constructor
        · obtain ⟨fnew, hfn, hrev⟩ := ihf.1
          refine ⟨fnew, ?_, hrev⟩
          simp only [Dir.putFile, hsd]
          simp only [Dir.getFile, hfind2]
          exact hfn
        · simp only [Dir.putFile, hsd]
          exact ihf.2

theorem claim_C7_witness_base :
    Dir.putFile ⟨[], [], [⟨['f'], [['x']]⟩]⟩ [['f']] ['x'] = (⟨[], [], [⟨['f'], [['x']]⟩]⟩, 1) :=
  (claim_C7_put_idempotent ⟨[], [], [⟨['f'], [['x']]⟩]⟩ ['f'] [] ['x']).1 rfl

end FileStore

namespace StrUtil

/-! Character-list counterparts of the str operations the file store and
LRCP servers use (split_once, split, parse, trim, replace). -/

/-- str::split_once: the text before the first separator and the text after
it, or none when the separator does not occur. -/
def splitOnce (sep : Char) : List Char → Option (List Char × List Char)
  | [] => none
  | c :: rest =>
    if c = sep then some ([], rest)
    else (splitOnce sep rest).map (fun pr => (c :: pr.1, pr.2))

/-- str::split collected into a Vec: every piece, empty pieces included
(splitting the empty string gives one empty piece). -/
def splitAll (sep : Char) : List Char → List (List Char)
  | [] => [[]]
  | c :: rest =>
    if c = sep then [] :: splitAll sep rest
    else
      match splitAll sep rest with
      | [] => [[c]]
      | p :: ps => (c :: p) :: ps

theorem splitOnce_snd_lt {sep : Char} :
    ∀ {s a b : List Char}, splitOnce sep s = some (a, b) → b.length < s.length := by
  intro s
  induction s with
  | nil => intro a b h; cases h
  | cons c rest ih =>
    intro a b h
    by_cases hc : c = sep
    · simp only [splitOnce, hc, if_true] at h
      cases h
      simp
    · simp only [splitOnce, hc, if_false] at h
      cases hsp : splitOnce sep rest with
      | none => rw [hsp] at h; cases h
      | some pr =>
        rw [hsp] at h
        cases h
        have := ih (a := pr.1) (b := pr.2) (by rw [hsp])
        simp only [List.length_cons]
        omega

/-- The numeric value of a nonempty all-digit string, as str::parse
accepts it (none on empty, non-digits, or a value outside usize). -/
def digitsVal (l : List Char) : Option Nat :=
  if l ≠ [] ∧ l.all Char.isDigit then
    let v := l.foldl (fun a c => 10 * a + (c.toNat - 48)) 0
    if v < 2 ^ 64 then some v else none
  else none

/-- usize::from_str: an optional leading plus sign then digits. -/
def parseUsize : List Char → Option Nat
  | '+' :: rest => digitsVal rest
  | l => digitsVal l

/-- Byte-wise lexicographic comparison of ASCII strings (str ordering). -/
def lexLe : List Char → List Char → Bool
  | [], _ => true
  | _ :: _, [] => false
  | a :: as, b :: bs => if a = b then lexLe as bs else decide (a < b)

/-- Insertion into a lexLe-sorted list. -/
def insertLex (x : List Char) : List (List Char) → List (List Char)
  | [] => [x]
  | y :: ys => if lexLe x y then x :: y :: ys else y :: insertLex x ys

/-- Vec::sort_unstable on strings (any correct sort; ties are identical
strings, so stability is irrelevant). -/
def sortLex (l : List (List Char)) : List (List Char) :=
  l.foldr insertLex []

end StrUtil

namespace FileStore

open StrUtil

/-- The enum ServerMessage of server_10.rs. -/
inductive FsMsg where
  | ok (s : String) : FsMsg
  | read (path : List Char) (n : Nat) : FsMsg
  | abort (s : String) : FsMsg
deriving DecidableEq, Repr

/-- is_valid_path of server_10.rs, parameterised by the alphanumeric
character test (Rust char::is_alphanumeric is the full Unicode one;
Char.isAlphanum is its ASCII restriction, used at the concrete inputs). -/
def hasDoubleSlash : List Char → Bool
  | '/' :: '/' :: _ => true
  | _ :: rest => hasDoubleSlash rest
  | [] => false

/-- pub fn is_valid_path. -/
def isValidPath (alnum : Char → Bool) (p : List Char) : Bool :=
  (match p with | '/' :: _ => true | _ => false) &&
  !(hasDoubleSlash p) &&
  p.all (fun c => alnum c || c = '/' || c = '.' || c = '-' || c = '_')

/-- The sorted listing of one directory (the path-empty case of
Dir::get_list): subdirectories not shadowed by a file, suffixed "/ DIR",
then files suffixed " r<revision count>", sorted ascending. -/
def formatListing (d : Dir) : List (List Char) :=
  let fileNames := d.files.map (fun f => f.name)
  let nodes := (d.subdirs.filter (fun d2 => !(fileNames.contains d2.name))).map
      (fun d2 => d2.name ++ "/ DIR".toList)
  sortLex (nodes ++ d.files.map (fun f => f.name ++ (" r" ++ toString f.revisions.length).toList))

/-- Dir::get_list of server_10.rs: walk subdirectories one split_once
segment at a time; the empty path lists the directory reached. -/
def Dir.getListP : Dir → List Char → List (List Char)
  | d, [] => formatListing d
  | ⟨_, subdirs, _⟩, c :: cs =>
    match hsp : splitOnce '/' (c :: cs) with
    | some pr =>
      match subdirs.find? (fun sd => sd.name == pr.1) with
      | some sd => sd.getListP pr.2
      | none => []
    | none =>
      match subdirs.find? (fun sd => sd.name == (c :: cs)) with
      | some sd => sd.getListP []
      | none => []
termination_by d p => p.length
decreasing_by
  · exact splitOnce_snd_lt hsp
  · simp

/-- The OK response of a successful GET. -/
def okData (data : List Char) : FsMsg :=
  .ok ("OK " ++ toString data.length ++ "\n" ++ String.mk data ++ "READY")

/-- ServerState::get_file of server_10.rs (the GET request handler). -/
def getFileResp (alnum : Char → Bool) (root : Dir) (args : List Char) : FsMsg :=
  let argl := splitAll ' ' args
  if !(1 ≤ argl.length && argl.length ≤ 2) then .ok "ERR usage: GET file [revision]\nREADY"
  else
    let path := argl.head!
    if !(isValidPath alnum path) then .ok "ERR illegal file name"
    else
      match root.getFile (splitAll '/' (path.drop 1)) with
      | none => .ok "ERR no such file\nREADY"
      | some file =>
        match (argl.drop 1).head? with
        | some a =>
          match parseUsize (if a.head? = some 'r' then a.drop 1 else a) with
          | some rev =>
            if 1 ≤ rev && rev ≤ file.revisions.length then
              okData (file.revisions.getD (rev - 1) [])
            else .ok "ERR no such revision\nREADY"
          | none => .ok "ERR no such revision\nREADY"
        | none => okData (file.revisions.getD (file.revisions.length - 1) [])

/-- ServerState::put_file of server_10.rs (the PUT request handler up to the
deferred body read). -/
def putFileResp (alnum : Char → Bool) (args : List Char) : FsMsg :=
  let argl := splitAll ' ' args
  if argl.length ≠ 2 then .ok "ERR usage: PUT file length newline data\nREADY"
  else
    let path := argl.head!
    if !(isValidPath alnum path) || path.getLast? = some '/' then .ok "ERR illegal file name"
    else .read path ((parseUsize ((argl.drop 1).head?.getD [])).getD 0)

/-- ServerState::list_files of server_10.rs (the LIST request handler). -/
def listFilesResp (alnum : Char → Bool) (root : Dir) (dirName : List Char) : FsMsg :=
  if dirName = [] || dirName.contains ' ' then .ok "ERR usage: LIST dir\nREADY"
  else if !(isValidPath alnum dirName) then .ok "ERR illegal dir name"
  else
    let nameEnd := if dirName.getLast? = some '/' && dirName.length > 1 then
        dirName.length - 1 else dirName.length
    let listing := root.getListP ((dirName.take nameEnd).drop 1)
    let out := "OK " ++ toString listing.length ++ "\n" ++
      String.mk (List.intercalate ['\n'] listing) ++
      (if listing ≠ [] then "\n" else "") ++ "READY"
    .ok out

/-- ServerState::get_response of server_10.rs. -/
def getResponse (alnum : Char → Bool) (root : Dir) (request : List Char) : FsMsg :=
  let vr := (splitOnce ' ' request).getD (request, [])
  let verb := vr.1.map Char.toUpper
  if verb = "HELP".toList then .ok "OK usage: HELP|GET|PUT|LIST\nREADY"
  else if verb = "GET".toList then getFileResp alnum root vr.2
  else if verb = "PUT".toList then putFileResp alnum vr.2
  else if verb = "LIST".toList then listFilesResp alnum root vr.2
  else .abort ("ERR illegal method: " ++ String.mk request)

/-- Claim C6 is a code bug: the GET/PUT "ERR illegal file name" and LIST
"ERR illegal dir name" responses are the only ones not ending in READY, so
after them the next request is processed with no READY emitted — here shown
on the request "GET foo" next to the sibling branch "GET /x" that does
append READY. -/
theorem claim_C6_missing_ready :
    getResponse Char.isAlphanum ⟨[], [], []⟩ "GET foo".toList =
      FsMsg.ok "ERR illegal file name" ∧
    ("READY".toList.isSuffixOf "ERR illegal file name".toList) = false ∧
    getResponse Char.isAlphanum ⟨[], [], []⟩ "GET /x".toList =
      FsMsg.ok "ERR no such file\nREADY" ∧
    ("READY".toList.isSuffixOf "ERR no such file\nREADY".toList) = true := by
  refine ⟨by decide, by decide, by decide, by decide⟩

end FileStore

namespace Chat

/-! Model of the name phase of handle_connection in src/server_03.rs (the
budgetchat hub).  The alphanumeric test is a parameter standing for Rust's
Unicode char::is_alphanumeric; the room is the list of present user names. -/

/-- fn is_valid of server_03.rs: every character alphanumeric (vacuously
true for the empty name). -/
def isValid (alnum : Char → Bool) (name : List Char) : Bool :=
  name.all alnum

/-- The messages the name phase sends. -/
inductive ChatMsg where
  | roomContents (recipient : List Char) (others : List (List Char)) : ChatMsg
  | entered (recipient : List Char) (name : List Char) : ChatMsg
deriving DecidableEq, Repr

/-- The name phase of handle_connection: given the first line read (none at
end of stream) and the room's current member list, the new room and the
messages sent.  An invalid name closes silently; a valid one is inserted,
receives the room contents snapshot, and a join broadcast goes to every
other member. -/
def handleName (alnum : Char → Bool) (room : List (List Char))
    (firstLine : Option (List Char)) : List (List Char) × List ChatMsg :=
  match firstLine with
  | none => (room, [])
  | some name =>
    if isValid alnum name then
      (room ++ [name],
       ChatMsg.roomContents name room ::
         (room.filter (fun o => o ≠ name)).map (fun o => ChatMsg.entered o name))
    else (room, [])

/-- Claim C8, amended: a first line containing any character the
alphanumeric test rejects closes the connection silently — the user is not
inserted, receives no room-contents message, and no join broadcast is sent;
a line every character of which passes — including the empty line, which
is accepted — admits the user with the room-contents message and the join
broadcast to the other members. -/
theorem claim_C8_amended (alnum : Char → Bool) (room : List (List Char))
    (name : List Char) :
    ((∃ c ∈ name, alnum c = false) →
      handleName alnum room (some name) = (room, [])) ∧
    ((∀ c ∈ name, alnum c = true) →
      handleName alnum room (some name) =
        (room ++ [name],
         ChatMsg.roomContents name room ::
           (room.filter (fun o => o ≠ name)).map (fun o => ChatMsg.entered o name))) := by
  constructor
  · intro ⟨c, hc, hf⟩
    have hval : isValid alnum name = false := by
      rw [← Bool.not_eq_true]
      intro hv
      rw [List.all_eq_true.mp hv c hc] at hf
      cases hf
    simp [handleName, hval]
  · intro hall
    have hval : isValid alnum name = true := List.all_eq_true.mpr hall
    simp [handleName, hval]

/-- Counterexample to claim C8 as stated: the empty first line is accepted
(is_valid is vacuously true on it), so the empty-named user is inserted
into the room and receives the room-contents message instead of the
connection being closed silently. -/
theorem claim_C8_counterexample :
    handleName Char.isAlphanum [] (some []) =
      ([[]], [ChatMsg.roomContents [] []]) := by decide

end Chat

namespace Lrcp

open StrUtil

/-! Model of src/server_07.rs (LRCP): the per-datagram request processing.
Datagrams are character lists (String::from_utf8_lossy output); the four
anchored regexes are written as equivalent deterministic matchers over the
ASCII digits (fancy_regex's \d also accepts other Unicode decimal digits,
but their captures then fail the ASCII-only str::parse and the request is
dropped with the table untouched — the same observable outcome the model
gives them through the unmatched-request path).  process_request's three
exits are kept apart by the LOutcome type below instead of being conflated
in an Option. -/

/-- struct Session of server_07.rs. -/
structure LSession where
  dataReceived : List Char
  dataToSend : List Char
  lengthReceived : Nat
  lengthSent : Nat
  lengthAcked : Nat
deriving DecidableEq, Repr

/-- Session::new. -/
def LSession.new : LSession := ⟨[], [], 0, 0, 0⟩

/-- Replacement of a two-character pattern by one character, left to right
without overlap (str::replace with a two-char pattern). -/
def replacePairWith (p1 p2 r : Char) : List Char → List Char
  | x :: y :: rest =>
    if x = p1 ∧ y = p2 then r :: replacePairWith p1 p2 r rest
    else x :: replacePairWith p1 p2 r (y :: rest)
  | l => l

/-- Replacement of one character by two, left to right (str::replace with a
one-char pattern). -/
def replaceOneWithTwo (p r1 r2 : Char) : List Char → List Char
  | [] => []
  | x :: rest =>
    if x = p then r1 :: r2 :: replaceOneWithTwo p r1 r2 rest
    else x :: replaceOneWithTwo p r1 r2 rest

/-- ServerState::unescape: replace backslash-backslash by backslash, then
backslash-slash by slash. -/
def unescape (s : List Char) : List Char :=
  replacePairWith '\\' '/' '/' (replacePairWith '\\' '\\' '\\' s)

/-- ServerState::escape: replace backslash by backslash-backslash, then
slash by backslash-slash. -/
def escape (s : List Char) : List Char :=
  replaceOneWithTwo '/' '\\' '/' (replaceOneWithTwo '\\' '\\' '\\' s)

/-- Session::push of server_07.rs: count the bytes, buffer a line fragment,
and reverse each completed line onto data_to_send. -/
def LSession.push (s : LSession) (data : List Char) : LSession :=
  let lr := s.lengthReceived + data.length
  if data.contains '\n' then
    let lines := splitAll '\n' data
    { dataReceived := lines.getLast!,
      dataToSend := s.dataToSend ++ lines.head!.reverse ++ s.dataReceived.reverse ++ ['\n'] ++
        ((lines.drop 1).dropLast.flatMap (fun l => l.reverse ++ ['\n'])),
      lengthReceived := lr,
      lengthSent := s.lengthSent,
      lengthAcked := s.lengthAcked }
  else
    { s with lengthReceived := lr, dataReceived := s.dataReceived ++ data }

/-- Session::get_message: the next slice of at most 950 bytes to send. -/
def LSession.getMessage (s : LSession) : Option (List Char) :=
  if s.dataToSend = [] then none
  else some (s.dataToSend.take (min s.dataToSend.length 950))

/-- Session::acknowledge: drain the acknowledged prefix. -/
def LSession.acknowledge (s : LSession) : LSession :=
  { s with dataToSend := s.dataToSend.drop (s.lengthSent - s.lengthAcked),
           lengthAcked := s.lengthSent }

/-- The enum ServerMessage of server_07.rs.  `ackTask` is the internal Ack
variant that only cancels the retransmit task; `dataMsg` carries a datagram
text (the handler sends "/ack/..."-texts directly and spawns a retransmit
task for the others); `closeMsg` becomes a "/close/SID/" datagram. -/
inductive LMsg where
  | ackTask (sid : Nat) : LMsg
  | dataMsg (sid : Nat) (text : List Char) : LMsg
  | closeMsg (sid : Nat) : LMsg
deriving DecidableEq, Repr

/-- The session table of struct ServerState. -/
structure LrcpState where
  sessions : List (Nat × LSession)
deriving DecidableEq, Repr

/-- HashMap::get on the session table. -/
def lookupS (l : List (Nat × LSession)) (k : Nat) : Option LSession :=
  (l.find? (fun kv => kv.1 == k)).map (fun kv => kv.2)

/-- Overwriting the session stored under a present key. -/
def setS (l : List (Nat × LSession)) (k : Nat) (v : LSession) : List (Nat × LSession) :=
  match l with
  | [] => []
  | kv :: rest => if kv.1 == k then (k, v) :: rest else kv :: setS rest k v

/-- HashMap::remove. -/
def removeS (l : List (Nat × LSession)) (k : Nat) : List (Nat × LSession) :=
  match l with
  | [] => []
  | kv :: rest => if kv.1 == k then rest else kv :: removeS rest k

/-- The decimal digits of a number (format!). -/
def natChars (n : Nat) : List Char := (toString n).toList

/-- The "/ack/SID/N/" texts. -/
def ackText (sid n : Nat) : List Char :=
  "/ack/".toList ++ natChars sid ++ ['/'] ++ natChars n ++ ['/']

/-- The "/data/SID/POS/DATA/" texts. -/
def dataText (sid pos : Nat) (payload : List Char) : List Char :=
  "/data/".toList ++ natChars sid ++ ['/'] ++ natChars pos ++ ['/'] ++ payload ++ ['/']

/-- ServerState::connect_session. -/
def connectSession (st : LrcpState) (sid : Nat) : LrcpState × List LMsg :=
  let sessions2 := if (lookupS st.sessions sid).isSome then st.sessions
                   else st.sessions ++ [(sid, LSession.new)]
  (⟨sessions2⟩, [LMsg.dataMsg sid (ackText sid 0)])

/-- ServerState::receive_data. -/
def receiveData (st : LrcpState) (sid pos : Nat) (rawData : List Char) :
    LrcpState × List LMsg :=
  match lookupS st.sessions sid with
  | none => (st, [LMsg.closeMsg sid])
  | some s =>
    let data := unescape rawData
    if s.lengthReceived = pos then
      let msg1 := LMsg.dataMsg sid (ackText sid (pos + data.length))
      let s2 := s.push data
      if s2.lengthAcked = s2.lengthSent then
        match s2.getMessage with
        | some resp =>
          let s3 := { s2 with lengthSent := s2.lengthSent + resp.length }
          (⟨setS st.sessions sid s3⟩,
           [msg1, LMsg.dataMsg sid (dataText sid s2.lengthAcked (escape resp))])
        | none => (⟨setS st.sessions sid s2⟩, [msg1])
      else (⟨setS st.sessions sid s2⟩, [msg1])
    else (st, [LMsg.dataMsg sid (ackText sid s.lengthReceived)])

/-- ServerState::receive_ack.  `none` models the get_message().unwrap()
panic of the retransmission arm. -/
def receiveAck (st : LrcpState) (sid pos : Nat) : Option (LrcpState × List LMsg) :=
  match lookupS st.sessions sid with
  | none => some (st, [LMsg.closeMsg sid])
  | some s =>
    if pos < s.lengthAcked then some (st, [LMsg.ackTask sid])
    else if pos = s.lengthSent then
      let s2 := s.acknowledge
      match s2.getMessage with
      | some resp =>
        let s3 := { s2 with lengthSent := s2.lengthSent + resp.length }
        some (⟨setS st.sessions sid s3⟩,
              [LMsg.ackTask sid, LMsg.dataMsg sid (dataText sid s2.lengthAcked (escape resp))])
      | none => some (⟨setS st.sessions sid s2⟩, [LMsg.ackTask sid])
    else if pos > s.lengthSent then some (st, [LMsg.ackTask sid, LMsg.closeMsg sid])
    else
      match s.getMessage with
      | some resp =>
        some (st, [LMsg.ackTask sid, LMsg.dataMsg sid (dataText sid s.lengthAcked (escape resp))])
      | none => none

/-- ServerState::close_session. -/
def closeSession (st : LrcpState) (sid : Nat) : LrcpState × List LMsg :=
  (⟨removeS st.sessions sid⟩, [LMsg.closeMsg sid])

/-- Consuming a literal (the fixed part of an anchored regex). -/
def dropLit : List Char → List Char → Option (List Char)
  | [], s => some s
  | c :: lr, x :: xs => if x = c then dropLit lr xs else none
  | _ :: _, [] => none

/-- The decimal value of a digit capture (before the u32/usize range check
of str::parse). -/
def digitsToNat (ds : List Char) : Nat :=
  ds.foldl (fun a c => 10 * a + (c.toNat - 48)) 0

/-- The regex ^/connect/(\d+)/$ as a matcher returning the digit capture. -/
def matchConnect (s : List Char) : Option (List Char) := do
  let s1 ← dropLit "/connect/".toList s
  let d := s1.takeWhile Char.isDigit
  let rest := s1.dropWhile Char.isDigit
  if d ≠ [] ∧ rest = ['/'] then some d else none

/-- The regex ^/close/(\d+)/$ as a matcher. -/
def matchClose (s : List Char) : Option (List Char) := do
  let s1 ← dropLit "/close/".toList s
  let d := s1.takeWhile Char.isDigit
  let rest := s1.dropWhile Char.isDigit
  if d ≠ [] ∧ rest = ['/'] then some d else none

/-- The regex ^/ack/(\d+)/(\d+)/$ as a matcher. -/
def matchAck (s : List Char) : Option (List Char × List Char) := do
  let s1 ← dropLit "/ack/".toList s
  let d1 := s1.takeWhile Char.isDigit
  let s2 := s1.dropWhile Char.isDigit
  match s2 with
  | '/' :: s3 =>
    let d2 := s3.takeWhile Char.isDigit
    let s4 := s3.dropWhile Char.isDigit
    if d1 ≠ [] ∧ d2 ≠ [] ∧ s4 = ['/'] then some (d1, d2) else none
  | _ => none

/-- The maximal run of DATA tokens (a non-slash non-backslash character, or
a backslash escaping a slash or backslash), and what follows it. -/
def scanData : List Char → List Char × List Char
  | [] => ([], [])
  | '/' :: rest => ([], '/' :: rest)
  | '\\' :: c :: rest =>
    if c = '/' ∨ c = '\\' then
      let pr := scanData rest
      ('\\' :: c :: pr.1, pr.2)
    else ([], '\\' :: c :: rest)
  | '\\' :: [] => ([], ['\\'])
  | c :: rest =>
    let pr := scanData rest
    (c :: pr.1, pr.2)

/-- The regex ^/data/(\d+)/(\d+)/((?:[^/\\]|\\/|\\\\)+)/$ as a matcher:
the token run must be nonempty and be followed by exactly the final
slash. -/
def matchData (s : List Char) : Option (List Char × List Char × List Char) := do
  let s1 ← dropLit "/data/".toList s
  let d1 := s1.takeWhile Char.isDigit
  let s2 := s1.dropWhile Char.isDigit
  match s2 with
  | '/' :: s3 =>
    let d2 := s3.takeWhile Char.isDigit
    let s4 := s3.dropWhile Char.isDigit
    match s4 with
    | '/' :: s5 =>
      let pr := scanData s5
      if d1 ≠ [] ∧ d2 ≠ [] ∧ pr.1 ≠ [] ∧ pr.2 = ['/'] then some (d1, d2, pr.1) else none
    | _ => none
  | _ => none

/-- The three exits of process_request as seen by handle_connection.
`ok st msgs` is Ok(responses): the table becomes `st` and `msgs` are sent.
`err` is an Err from a numeric capture failing str::parse (the ? operator):
in every arm the captures are parsed before any session call, so the table
is untouched, and handle_connection's `let Ok(responses) = .. else return`
sends nothing.  `panicked` is the get_message().unwrap() panic of
receive_ack's retransmission arm, which aborts the handler task. -/
inductive LOutcome where
  | ok (st : LrcpState) (msgs : List LMsg) : LOutcome
  | err : LOutcome
  | panicked : LOutcome
deriving DecidableEq, Repr

/-- ServerState::process_request: try the four grammars in order; an
unmatched request yields Ok with no responses and the state unchanged; a
numeric capture outside its integer type (u32 session ids, usize
positions) is an Err. -/
def processRequest (st : LrcpState) (request : List Char) : LOutcome :=
  match matchConnect request with
  | some sd =>
    if digitsToNat sd < 2 ^ 32 then
      let r := connectSession st (digitsToNat sd); .ok r.1 r.2
    else .err
  | none =>
  match matchData request with
  | some (sd, pd, dd) =>
    if digitsToNat sd < 2 ^ 32 ∧ digitsToNat pd < 2 ^ 64 then
      let r := receiveData st (digitsToNat sd) (digitsToNat pd) dd; .ok r.1 r.2
    else .err
  | none =>
  match matchAck request with
  | some (sd, pd) =>
    if digitsToNat sd < 2 ^ 32 ∧ digitsToNat pd < 2 ^ 64 then
      match receiveAck st (digitsToNat sd) (digitsToNat pd) with
      | some r => .ok r.1 r.2
      | none => .panicked
    else .err
  | none =>
  match matchClose request with
  | some sd =>
    if digitsToNat sd < 2 ^ 32 then
      let r := closeSession st (digitsToNat sd); .ok r.1 r.2
    else .err
  | none => .ok st []

/-- str::trim on the datagram text.  `ws` stands for Rust's
char::is_whitespace (the Unicode White_Space property, which also strips
e.g. U+00A0 and U+2028); theorems quantify over it, and concrete
evaluations instantiate it at Char.isWhitespace, which agrees with it on
the ASCII-only inputs used there. -/
def trimChars (ws : Char → Bool) (s : List Char) : List Char :=
  ((s.dropWhile ws).reverse.dropWhile ws).reverse

/-- Server::handle_connection of server_07.rs up to response dispatch: the
datagram is decoded, trimmed and processed. -/
def handleDatagram (ws : Char → Bool) (st : LrcpState) (dgram : List Char) : LOutcome :=
  processRequest st (trimChars ws dgram)

/-- Claim C5, amended, for every whitespace predicate `ws` (Rust's
char::is_whitespace): a datagram that, after trimming, matches none of the
four message grammars is silently dropped — process_request returns Ok with
no responses and the table unchanged; and a datagram one of whose numeric
captures overflows its integer type (u32 session ids, usize positions) is
also silently dropped — process_request returns Err before any session
call, so the table is unchanged and handle_connection sends nothing.  (No
size check exists: oversized datagrams are processed normally, see the
counterexample.) -/
theorem claim_C5_amended (ws : Char → Bool) (st : LrcpState) (d : List Char) :
    (matchConnect (trimChars ws d) = none → matchData (trimChars ws d) = none →
     matchAck (trimChars ws d) = none → matchClose (trimChars ws d) = none →
     handleDatagram ws st d = .ok st []) ∧
    (∀ sd, matchConnect (trimChars ws d) = some sd →
     2 ^ 32 ≤ digitsToNat sd → handleDatagram ws st d = .err) ∧
    (∀ sd pd dd, matchConnect (trimChars ws d) = none →
     matchData (trimChars ws d) = some (sd, pd, dd) →
     2 ^ 32 ≤ digitsToNat sd ∨ 2 ^ 64 ≤ digitsToNat pd →
     handleDatagram ws st d = .err) ∧
    (∀ sd pd, matchConnect (trimChars ws d) = none →
     matchData (trimChars ws d) = none → matchAck (trimChars ws d) = some (sd, pd) →
     2 ^ 32 ≤ digitsToNat sd ∨ 2 ^ 64 ≤ digitsToNat pd →
     handleDatagram ws st d = .err) ∧
    (∀ sd, matchConnect (trimChars ws d) = none → matchData (trimChars ws d) = none →
     matchAck (trimChars ws d) = none → matchClose (trimChars ws d) = some sd →
     2 ^ 32 ≤ digitsToNat sd → handleDatagram ws st d = .err) := by
  refine ⟨?_, ?_, ?_, ?_, ?_⟩
  · intro h1 h2 h3 h4
    simp [handleDatagram, processRequest, h1, h2, h3, h4]
  · intro sd h1 hov
    have hc : ¬ digitsToNat sd < 2 ^ 32 := by omega
    simp only [handleDatagram, processRequest, h1, if_neg hc]
  · intro sd pd dd h1 h2 hov
    have hc : ¬ (digitsToNat sd < 2 ^ 32 ∧ digitsToNat pd < 2 ^ 64) := by omega
    simp only [handleDatagram, processRequest, h1, h2, if_neg hc]
  · intro sd pd h1 h2 h3 hov
    have hc : ¬ (digitsToNat sd < 2 ^ 32 ∧ digitsToNat pd < 2 ^ 64) := by omega
    simp only [handleDatagram, processRequest, h1, h2, h3, if_neg hc]
  · intro sd h1 h2 h3 h4 hov
    have hc : ¬ digitsToNat sd < 2 ^ 32 := by omega
    simp only [handleDatagram, processRequest, h1, h2, h3, h4, if_neg hc]

/-- Witness for the amended C5: the malformed datagram "hello" is dropped
with no responses, and the connect datagram "/connect/4294967296/" (session
id 2^32, one past u32::MAX) is dropped through the Err path.  Both inputs
are ASCII, where Char.isWhitespace agrees with char::is_whitespace. -/
theorem claim_C5_witness :
    handleDatagram Char.isWhitespace ⟨[]⟩ "hello".toList = .ok ⟨[]⟩ [] ∧
    handleDatagram Char.isWhitespace ⟨[]⟩ "/connect/4294967296/".toList = .err :=
  ⟨(claim_C5_amended Char.isWhitespace ⟨[]⟩ "hello".toList).1
      (by decide) (by decide) (by decide) (by decide),
   (claim_C5_amended Char.isWhitespace ⟨[]⟩ "/connect/4294967296/".toList).2.1
      "4294967296".toList (by decide) (by decide)⟩

set_option maxRecDepth 100000 in
/-- Counterexample to claim C5 as stated: a well-formed 1001-byte data
message ("/data/1/0/" ++ 990 bytes ++ "/") sent to an open session is
processed, mutating the session and sending an ack reply, instead of being
silently dropped for exceeding 1000 bytes. -/
theorem claim_C5_counterexample :
    ("/data/1/0/".toList ++ List.replicate 990 'a' ++ ['/']).length = 1001 ∧
    handleDatagram Char.isWhitespace ⟨[(1, LSession.new)]⟩
        ("/data/1/0/".toList ++ List.replicate 990 'a' ++ ['/']) =
      .ok ⟨[(1, { dataReceived := List.replicate 990 'a', dataToSend := [],
                  lengthReceived := 990, lengthSent := 0, lengthAcked := 0 })]⟩
          [LMsg.dataMsg 1 "/ack/1/990/".toList] ∧
    (⟨[(1, { dataReceived := List.replicate 990 'a', dataToSend := [],
             lengthReceived := 990, lengthSent := 0, lengthAcked := 0 })]⟩ : LrcpState) ≠
      ⟨[(1, LSession.new)]⟩ := by
  refine ⟨by decide, by decide, by decide⟩

end Lrcp

namespace Utils

/-! Model of read_until of src/utils.rs.  The fixed-size caller buffer is a
list of length `cap`; the stream is the list of the chunks successive
read() calls return (each nonempty and at most `cap` long; exhaustion is
the Ok(0) end of stream).  The code accumulates a String by pushing
String::from_utf8_lossy of each chunk slice of the buffer; the model
represents the String as the byte list of its UTF-8 encoding and carries
the conversion as an explicit parameter `lossy`, applied exactly where the
source applies it.  from_utf8_lossy rewrites invalid UTF-8 (including
valid sequences the read boundary splits across two chunk slices) to
replacement characters, and is the identity precisely on slices that are
valid UTF-8 — in particular on ASCII slices (every byte below 0x80), the
domain to which the C9 theorem is restricted via the hypothesis
`∀ l, (∀ b ∈ l, b < 128) → lossy l = l`. -/

/-- The loop of read_until: while the current chunk (the first `dataLen`
buffer bytes) holds no delimiter, push its from_utf8_lossy conversion
(`lossy`) onto the accumulator and read the next chunk over the buffer's
front.  On a delimiter, return the accumulated text extended by the
conversion of the bytes up to it, and keep the bytes between delimiter and
`dataLen` at the front of the buffer, zero-filling the rest.  `none` is
end of stream. -/
def readUntilLoop (lossy : List Nat → List Nat) (limit cap : Nat) :
    List (List Nat) → List Nat → List Nat → Nat →
      Option (List Nat × List Nat × List (List Nat))
  | stream, buffer, data, dataLen =>
    if (buffer.take dataLen).contains limit then
      let index := buffer.findIdx (fun c => c == limit)
      some (data ++ lossy (buffer.take index),
            (buffer.drop (index + 1)).take (dataLen - index - 1) ++
              List.replicate (cap - (dataLen - index - 1)) 0,
            stream)
    else
      match stream with
      | [] => none
      | c :: rest =>
        readUntilLoop lossy limit cap rest (c ++ buffer.drop c.length)
          (data ++ lossy (buffer.take dataLen)) c.length

/-- read_until of utils.rs: the initial chunk length is the position of the
first NUL byte in the buffer (the buffer's end-of-content sentinel). -/
def readLine (lossy : List Nat → List Nat) (limit cap : Nat)
    (stream : List (List Nat)) (buffer : List Nat) :
    Option (List Nat × List Nat × List (List Nat)) :=
  readUntilLoop lossy limit cap stream buffer [] (buffer.findIdx (fun c => c == 0))

/-- The text before the first occurrence of `limit` and the text after it. -/
def firstSplit (limit : Nat) : List Nat → Option (List Nat × List Nat)
  | [] => none
  | x :: xs =>
    if x = limit then some ([], xs)
    else (firstSplit limit xs).map (fun pr => (x :: pr.1, pr.2))

theorem firstSplit_of_not_mem {limit : Nat} :
    ∀ {l : List Nat}, limit ∉ l → firstSplit limit l = none := by
  intro l
  induction l with
  | nil => intro _; rfl
  | cons x xs ih =>
    intro h
    have hx : ¬ x = limit := fun hc => h (hc ▸ List.mem_cons_self x xs)
    simp only [firstSplit, hx, if_false]
    rw [ih (fun hc => h (List.mem_cons_of_mem x hc))]
    rfl

theorem firstSplit_of_mem {limit : Nat} :
    ∀ {l : List Nat}, limit ∈ l →
      ∃ b a, firstSplit limit l = some (b, a) ∧ l = b ++ limit :: a ∧ limit ∉ b := by
  intro l
  induction l with
  | nil => intro h; cases h
  | cons x xs ih =>
    intro h
    by_cases hx : x = limit
    · subst hx
      exact ⟨[], xs, by simp [firstSplit], rfl, List.not_mem_nil x⟩
    · have hmem : limit ∈ xs := by
        rcases List.mem_cons.mp h with hc | hc
        · exact absurd hc.symm hx
        · exact hc
      obtain ⟨b, a, hsp, heq, hnb⟩ := ih hmem
      refine ⟨x :: b, a, ?_, by rw [List.cons_append, ← heq], ?_⟩
      · simp only [firstSplit, hx, if_false, hsp]
        rfl
      · intro hc
        rcases List.mem_cons.mp hc with hc2 | hc2
        · exact hx hc2.symm
        · exact hnb hc2

theorem firstSplit_append_left {limit : Nat} :
    ∀ {xs : List Nat}, limit ∉ xs → ∀ (ys : List Nat),
      firstSplit limit (xs ++ ys) =
        (firstSplit limit ys).map (fun pr => (xs ++ pr.1, pr.2)) := by
  intro xs
  induction xs with
  | nil =>
    intro _ ys
    simp only [List.nil_append]
    cases firstSplit limit ys with
    | none => rfl
    | some pr => rfl
  | cons x xs ih =>
    intro h ys
    have hx : ¬ x = limit := fun hc => h (hc ▸ List.mem_cons_self x xs)
    rw [List.cons_append]
    simp only [firstSplit, hx, if_false]
    rw [ih (fun hc => h (List.mem_cons_of_mem x hc)) ys]
    cases firstSplit limit ys with
    | none => rfl
    | some pr => rfl

theorem findIdx_first {limit : Nat} :
    ∀ {b : List Nat}, limit ∉ b → ∀ (t : List Nat),
      (b ++ limit :: t).findIdx (fun c => c == limit) = b.length := by
  intro b
  induction b with
  | nil =>
    intro _ t
    simp [List.findIdx_cons]
  | cons x xs ih =>
    intro h t
    have hx : ¬ x = limit := fun hc => h (hc ▸ List.mem_cons_self x xs)
    rw [List.cons_append, List.findIdx_cons]
    simp only [beq_eq_false_iff_ne.mpr hx, cond_false]
    rw [ih (fun hc => h (List.mem_cons_of_mem x hc)) t]
    simp

theorem findIdx_zero_pad {content : List Nat} (k : Nat) (hz : (0:Nat) ∉ content) :
    (content ++ List.replicate k 0).findIdx (fun c => c == 0) = content.length := by
  induction content with
  | nil => cases k <;> simp [List.findIdx_cons, List.replicate_succ]
  | cons x xs ih =>
    have hx : ¬ x = 0 := fun hc => hz (hc ▸ List.mem_cons_self x xs)
    rw [List.cons_append, List.findIdx_cons]
    simp only [beq_eq_false_iff_ne.mpr hx, cond_false]
    rw [ih (fun hc => hz (List.mem_cons_of_mem x hc))]
    simp

theorem readUntilLoop_spec (lossy : List Nat → List Nat) (limit cap : Nat)
    (hlossy : ∀ l, (∀ b ∈ l, b < 128) → lossy l = l) :
    ∀ (stream : List (List Nat)) (buffer data : List Nat) (dataLen : Nat),
      buffer.length = cap → dataLen ≤ cap →
      (∀ c ∈ stream, c.length ≤ cap) →
      (∀ b ∈ buffer.take dataLen, b < 128) →
      (∀ c ∈ stream, ∀ b ∈ c, b < 128) →
      (match firstSplit limit (buffer.take dataLen ++ stream.flatten) with
       | none => readUntilLoop lossy limit cap stream buffer data dataLen = none
       | some pr =>
         ∃ retained rest2,
           readUntilLoop lossy limit cap stream buffer data dataLen =
             some (data ++ pr.1, retained ++ List.replicate (cap - retained.length) 0, rest2) ∧
           retained ++ rest2.flatten = pr.2 ∧ retained.length ≤ cap ∧
           ((0 ∉ buffer.take dataLen ∧ ∀ c ∈ stream, (0:Nat) ∉ c) → 0 ∉ retained)) := by
  intro stream
  induction stream with
  | nil =>
    intro buffer data dataLen hblen hdlen _ hcur _
    by_cases hmem : limit ∈ buffer.take dataLen
    · have hcont : (buffer.take dataLen).contains limit = true := by
        simpa [List.contains] using List.elem_iff.mpr hmem
      obtain ⟨b, a, hsp, heq, hnb⟩ := firstSplit_of_mem hmem
      have hbuf : (buffer.take dataLen) ++ buffer.drop dataLen = buffer :=
        List.take_append_drop _ _
      have hculen : (buffer.take dataLen).length = dataLen := by
        rw [List.length_take]; omega
      have hdl : dataLen = b.length + 1 + a.length := by
        rw [heq] at hculen; simp at hculen; omega
      have hsplit : firstSplit limit (buffer.take dataLen ++ List.flatten []) =
          some (b, a ++ List.flatten []) := by
        rw [heq, List.append_assoc, List.cons_append, firstSplit_append_left hnb]
        simp [firstSplit]
      have hidx : buffer.findIdx (fun c2 => c2 == limit) = b.length := by
        conv_lhs => rw [← hbuf, heq]
        rw [List.append_assoc, List.cons_append]
        exact findIdx_first hnb _
      have htake : buffer.take b.length = b := by
        conv_lhs => rw [← hbuf, heq]
        rw [List.append_assoc, List.cons_append]
        exact List.take_left _ _
      have hdrop : buffer.drop (b.length + 1) = a ++ buffer.drop dataLen := by
        conv_lhs => rw [← hbuf, heq]
        rw [show (b ++ limit :: a) ++ buffer.drop dataLen =
            (b ++ [limit]) ++ (a ++ buffer.drop dataLen) by simp,
          show b.length + 1 = (b ++ [limit]).length by simp]
        exact List.drop_left _ _
      have hret : (buffer.drop (b.length + 1)).take (dataLen - b.length - 1) = a := by
        rw [hdrop, show dataLen - b.length - 1 = a.length by omega]
        exact List.take_left _ _
      have hlb : lossy b = b :=
        hlossy b (fun x hx => hcur x (by rw [heq]; exact List.mem_append_left _ hx))
      simp only [hsplit]
      refine ⟨a, [], ?_, by simp, by omega, ?_⟩
      · simp only [readUntilLoop, hcont, if_true, hidx, htake, hlb, hret]
        rw [show dataLen - b.length - 1 = a.length from by omega]
      · intro ⟨hz, _⟩ hc
        rw [heq] at hz
        exact hz (List.mem_append_right b (List.mem_cons_of_mem limit hc))
    · have hcont : (buffer.take dataLen).contains limit = false := by
        rw [← Bool.not_eq_true]
        intro hc
        exact hmem (List.elem_iff.mp (by simpa [List.contains] using hc))
      have hsplit : firstSplit limit (buffer.take dataLen ++ List.flatten []) = none := by
        rw [List.flatten_nil, List.append_nil]
        exact firstSplit_of_not_mem hmem
      simp only [hsplit]
      simp only [readUntilLoop, hcont, Bool.false_eq_true, if_false]
  | cons c rest ih =>
    intro buffer data dataLen hblen hdlen hchunks hcur hstra
    by_cases hmem : limit ∈ buffer.take dataLen
    · have hcont : (buffer.take dataLen).contains limit = true := by
        simpa [List.contains] using List.elem_iff.mpr hmem
      obtain ⟨b, a, hsp, heq, hnb⟩ := firstSplit_of_mem hmem
      have hbuf : (buffer.take dataLen) ++ buffer.drop dataLen = buffer :=
        List.take_append_drop _ _
      have hculen : (buffer.take dataLen).length = dataLen := by
        rw [List.length_take]; omega
      have hdl : dataLen = b.length + 1 + a.length := by
        rw [heq] at hculen; simp at hculen; omega
      have hsplit : firstSplit limit (buffer.take dataLen ++ List.flatten (c :: rest)) =
          some (b, a ++ List.flatten (c :: rest)) := by
        rw [heq, List.append_assoc, List.cons_append, firstSplit_append_left hnb]
        simp [firstSplit]
      have hidx : buffer.findIdx (fun c2 => c2 == limit) = b.length := by
        conv_lhs => rw [← hbuf, heq]
        rw [List.append_assoc, List.cons_append]
        exact findIdx_first hnb _
      have htake : buffer.take b.length = b := by
        conv_lhs => rw [← hbuf, heq]
        rw [List.append_assoc, List.cons_append]
        exact List.take_left _ _
      have hdrop : buffer.drop (b.length + 1) = a ++ buffer.drop dataLen := by
        conv_lhs => rw [← hbuf, heq]
        rw [show (b ++ limit :: a) ++ buffer.drop dataLen =
            (b ++ [limit]) ++ (a ++ buffer.drop dataLen) by simp,
          show b.length + 1 = (b ++ [limit]).length by simp]
        exact List.drop_left _ _
      have hret : (buffer.drop (b.length + 1)).take (dataLen - b.length - 1) = a := by
        rw [hdrop, show dataLen - b.length - 1 = a.length by omega]
        exact List.take_left _ _
      have hlb : lossy b = b :=
        hlossy b (fun x hx => hcur x (by rw [heq]; exact List.mem_append_left _ hx))
      simp only [hsplit]
      refine ⟨a, c :: rest, ?_, by simp, by omega, ?_⟩
      · simp only [readUntilLoop, hcont, if_true, hidx, htake, hlb, hret]
        rw [show dataLen - b.length - 1 = a.length from by omega]
      · intro ⟨hz, _⟩ hc
        rw [heq] at hz
        exact hz (List.mem_append_right b (List.mem_cons_of_mem limit hc))
    · have hcont : (buffer.take dataLen).contains limit = false := by
        rw [← Bool.not_eq_true]
        intro hc
        exact hmem (List.elem_iff.mp (by simpa [List.contains] using hc))
      have hclen : c.length ≤ cap := hchunks c (List.mem_cons_self c rest)
      have hb2len : (c ++ buffer.drop c.length).length = cap := by
        simp [List.length_drop]
        omega
      have hb2take : (c ++ buffer.drop c.length).take c.length = c :=
        List.take_left _ _
      have hrchunks : ∀ x ∈ rest, x.length ≤ cap :=
        fun x hx => hchunks x (List.mem_cons_of_mem c hx)
      have hcascii : ∀ b ∈ c, b < 128 := hstra c (List.mem_cons_self c rest)
      have hrascii : ∀ x ∈ rest, ∀ b ∈ x, b < 128 :=
        fun x hx => hstra x (List.mem_cons_of_mem c hx)
      have hcur2 : ∀ b ∈ (c ++ buffer.drop c.length).take c.length, b < 128 := by
        rw [hb2take]; exact hcascii
      have hlc : lossy (buffer.take dataLen) = buffer.take dataLen := hlossy _ hcur
      have hspec := ih (c ++ buffer.drop c.length) (data ++ buffer.take dataLen)
        c.length hb2len hclen hrchunks hcur2 hrascii
      rw [hb2take] at hspec
      have hstep : readUntilLoop lossy limit cap (c :: rest) buffer data dataLen =
          readUntilLoop lossy limit cap rest (c ++ buffer.drop c.length)
            (data ++ buffer.take dataLen) c.length := by
        simp only [readUntilLoop, hcont, Bool.false_eq_true, if_false, hlc]
      cases hz : firstSplit limit (c ++ List.flatten rest) with
      | none =>
        have hsplit : firstSplit limit (buffer.take dataLen ++ List.flatten (c :: rest)) = none := by
          rw [List.flatten_cons, firstSplit_append_left hmem, hz]
          rfl
        simp only [hsplit]
        rw [hstep]
        simpa only [hz] using hspec
      | some pr =>
        have hsplit : firstSplit limit (buffer.take dataLen ++ List.flatten (c :: rest)) =
            some (buffer.take dataLen ++ pr.1, pr.2) := by
          rw [List.flatten_cons, firstSplit_append_left hmem, hz]
          rfl
        simp only [hz] at hspec
        obtain ⟨retained, rest2, hloop, hjoin, hrlen, hzero⟩ := hspec
        simp only [hsplit]
        refine ⟨retained, rest2, ?_, hjoin, hrlen, ?_⟩
        · rw [hstep, hloop, List.append_assoc]
        · intro ⟨hzc, hzs⟩
          exact hzero ⟨hzs c (List.mem_cons_self c rest),
            fun x hx => hzs x (List.mem_cons_of_mem c hx)⟩

/-- Claim C9, amended: over any ASCII stream and retained ASCII buffer
content free of NUL bytes (every byte below 0x80 — there from_utf8_lossy,
which the source applies chunk slice by chunk slice, is the identity, so
the accumulated String is byte-exact; the buffer uses NUL as its
end-of-content sentinel), read_until returns exactly the bytes preceding
the first newline delimiter (delimiter excluded), retains the bytes past
that delimiter in the buffer so that a subsequent call continues from them
(the retained bytes followed by the unread chunks are exactly the bytes
after the delimiter, and the buffer invariant is re-established), and
returns nothing when the stream ends before a delimiter is seen.  With
NUL bytes in play the retention contract fails (see the counterexample);
outside ASCII, from_utf8_lossy rewrites invalid or boundary-split UTF-8
to replacement characters and byte-exactness is lost. -/
theorem claim_C9_amended (lossy : List Nat → List Nat) (cap : Nat)
    (stream : List (List Nat)) (content buffer : List Nat)
    (hlossy : ∀ l, (∀ b ∈ l, b < 128) → lossy l = l)
    (hbuf : buffer = content ++ List.replicate (cap - content.length) 0)
    (hclen : content.length ≤ cap) (hz : (0:Nat) ∉ content)
    (hascii : ∀ b ∈ content, b < 128)
    (hchunks : ∀ c ∈ stream, c.length ≤ cap ∧ (0:Nat) ∉ c ∧ ∀ b ∈ c, b < 128) :
    match firstSplit 10 (content ++ stream.flatten) with
    | none => readLine lossy 10 cap stream buffer = none
    | some pr =>
      ∃ retained rest2,
        readLine lossy 10 cap stream buffer =
          some (pr.1, retained ++ List.replicate (cap - retained.length) 0, rest2) ∧
        retained ++ rest2.flatten = pr.2 ∧ (0:Nat) ∉ retained ∧ retained.length ≤ cap := by
  subst hbuf
  have hinit : (content ++ List.replicate (cap - content.length) 0).findIdx
      (fun c => c == 0) = content.length := findIdx_zero_pad _ hz
  have hlen : (content ++ List.replicate (cap - content.length) 0).length = cap := by
    simp
    omega
  have htake : (content ++ List.replicate (cap - content.length) 0).take content.length =
      content := List.take_left _ _
  have hcur : ∀ b ∈ (content ++ List.replicate (cap - content.length) 0).take
      content.length, b < 128 := by
    rw [htake]; exact hascii
  have hspec := readUntilLoop_spec lossy 10 cap hlossy stream
    (content ++ List.replicate (cap - content.length) 0) [] content.length hlen hclen
    (fun c hc => (hchunks c hc).1) hcur (fun c hc => (hchunks c hc).2.2)
  rw [htake] at hspec
  unfold readLine
  rw [hinit]
  cases hfs : firstSplit 10 (content ++ stream.flatten) with
  | none =>
    simp only [hfs] at hspec
    exact hspec
  | some pr =>
    simp only [hfs] at hspec
    obtain ⟨retained, rest2, hloop, hjoin, hrlen, hzero⟩ := hspec
    refine ⟨retained, rest2, ?_, hjoin, ?_, hrlen⟩
    · rw [hloop]
      simp
    · exact hzero ⟨hz, fun c hc => (hchunks c hc).2.1⟩

/-- Witness for the amended C9: a fresh 4-byte buffer, one chunk
"a\n"++"b"; the line "a" is returned and "b" is retained.  All bytes are
ASCII, so the lossy conversion is instantiated at the identity, which
from_utf8_lossy is on every slice involved. -/
theorem claim_C9_witness :
    ∃ retained rest2,
      readLine (fun l => l) 10 4 [[97, 10, 98]] (List.replicate 4 0) =
        some ([97], retained ++ List.replicate (4 - retained.length) 0, rest2) ∧
      retained ++ rest2.flatten = [98] ∧ (0:Nat) ∉ retained ∧ retained.length ≤ 4 := by
  have h := claim_C9_amended (fun l => l) 4 [[97, 10, 98]] [] (List.replicate 4 0)
    (fun l h2 => rfl) (by decide) (by decide) (by decide) (by decide) (by decide)
  exact h

/-- Counterexample to claim C9 as stated: the chunk "a\nb\0c\n" retains
"b\0c\n" after the first call returns "a", but the NUL byte truncates the
retained content, so the second call returns none (end of stream) instead
of the line "b\0c" the retained delimiter promises.  All bytes involved
are ASCII, so the lossy conversion is instantiated at the identity, which
from_utf8_lossy is on every slice involved. -/
theorem claim_C9_counterexample :
    readLine (fun l => l) 10 8 [[97, 10, 98, 0, 99, 10]] (List.replicate 8 0) =
      some ([97], [98, 0, 99, 10, 0, 0, 0, 0], []) ∧
    readLine (fun l => l) 10 8 [] [98, 0, 99, 10, 0, 0, 0, 0] = none ∧
    (10:Nat) ∈ [98, 0, 99, 10] := by
  refine ⟨by decide, by decide, by decide⟩

end Utils
